import Mathlib

/-!
Shallow embedding of the `elkr` static linker (ELF64 little-endian AArch64).

Byte buffers are modelled as `List Nat` (well-formed buffers hold values < 256).
Machine-integer wrapping (`wrapping_sub`, `as u64`, `as i64` casts) is modelled
explicitly with `% 2^64`; other u64 arithmetic on addresses and sizes is
modelled with plain `Nat` addition.  Rust panics (`unwrap`, out-of-bounds
indexing and slicing) are modelled by returning `Option.none`.
Hash maps are modelled as association lists; `String` keys become raw byte
lists (a name is the byte run before the NUL terminator, accepted only when it
is valid UTF-8, as `CStr::to_str` requires).
-/

namespace Elkr

abbrev Bytes := List Nat

abbrev Name := List Nat

/-- Read `w` bytes little-endian from the front of a buffer
(models nom's `le_u16`/`le_u32`/`le_u64` and `u8`). -/
def readLE : Nat → Bytes → Option (Nat × Bytes)
  | 0, bs => some (0, bs)
  | _ + 1, [] => none
  | w + 1, b :: bs =>
    match readLE w bs with
    | some (v, rest) => some (b + 256 * v, rest)
    | none => none

/-- Serialise a value as `w` little-endian bytes (models `to_le_bytes`). -/
def toLeBytes : Nat → Nat → Bytes
  | 0, _ => []
  | w + 1, v => v % 256 :: toLeBytes w (v / 256)

/-- `bs[a..b]` slicing on byte buffers; `none` models a Rust slice-range panic. -/
def slice (bs : Bytes) (a b : Nat) : Option Bytes :=
  if a ≤ b ∧ b ≤ bs.length then some ((bs.take b).drop a) else none

/-- `&bs[a..]` suffix slicing; `none` models the panic when `a > len`. -/
def sliceFrom (bs : Bytes) (a : Nat) : Option Bytes :=
  if a ≤ bs.length then some (bs.drop a) else none

/-- First-match lookup in an association list (models `HashMap::get`). -/
def lookupAssoc {κ α : Type _} [DecidableEq κ] : List (κ × α) → κ → Option α
  | [], _ => none
  | (k, v) :: rest, key => if k = key then some v else lookupAssoc rest key

/-- The bytes of a NUL-terminated string: everything before the first 0,
`none` when no NUL occurs (models `CStr::from_bytes_until_nul`). -/
def takeUntilNul : Bytes → Option Bytes
  | [] => none
  | b :: bs => if b = 0 then some [] else (takeUntilNul bs).map (b :: ·)

/-- UTF-8 validity of a byte run (models `CStr::to_str(...).ok()`), following
RFC 3629's well-formed byte sequences. -/
def isValidUtf8 : Bytes → Bool
  | [] => true
  | b :: bs =>
    if b < 0x80 then isValidUtf8 bs
    else if 0xC2 ≤ b ∧ b ≤ 0xDF then
      match bs with
      | c :: bs2 => decide (0x80 ≤ c ∧ c ≤ 0xBF) && isValidUtf8 bs2
      | _ => false
    else if b = 0xE0 then
      match bs with
      | c :: d :: bs2 =>
        decide (0xA0 ≤ c ∧ c ≤ 0xBF) && decide (0x80 ≤ d ∧ d ≤ 0xBF) && isValidUtf8 bs2
      | _ => false
    else if (0xE1 ≤ b ∧ b ≤ 0xEC) ∨ b = 0xEE ∨ b = 0xEF then
      match bs with
      | c :: d :: bs2 =>
        decide (0x80 ≤ c ∧ c ≤ 0xBF) && decide (0x80 ≤ d ∧ d ≤ 0xBF) && isValidUtf8 bs2
      | _ => false
    else if b = 0xED then
      match bs with
      | c :: d :: bs2 =>
        decide (0x80 ≤ c ∧ c ≤ 0x9F) && decide (0x80 ≤ d ∧ d ≤ 0xBF) && isValidUtf8 bs2
      | _ => false
    else if b = 0xF0 then
      match bs with
      | c :: d :: e :: bs2 =>
        decide (0x90 ≤ c ∧ c ≤ 0xBF) && decide (0x80 ≤ d ∧ d ≤ 0xBF) &&
          decide (0x80 ≤ e ∧ e ≤ 0xBF) && isValidUtf8 bs2
      | _ => false
    else if 0xF1 ≤ b ∧ b ≤ 0xF3 then
      match bs with
      | c :: d :: e :: bs2 =>
        decide (0x80 ≤ c ∧ c ≤ 0xBF) && decide (0x80 ≤ d ∧ d ≤ 0xBF) &&
          decide (0x80 ≤ e ∧ e ≤ 0xBF) && isValidUtf8 bs2
      | _ => false
    else if b = 0xF4 then
      match bs with
      | c :: d :: e :: bs2 =>
        decide (0x80 ≤ c ∧ c ≤ 0x8F) && decide (0x80 ≤ d ∧ d ≤ 0xBF) &&
          decide (0x80 ≤ e ∧ e ≤ 0xBF) && isValidUtf8 bs2
      | _ => false
    else false

/-! ## Data model (src/elf) -/

/-- `ElfHeader` from src/elf/header.rs. -/
structure ElfHeader where
  eclass : Nat
  edata : Nat
  version : Nat
  os_abi : Nat
  abi_version : Nat
  e_type : Nat
  e_machine : Nat
  e_version : Nat
  e_entry : Nat
  e_phoff : Nat
  e_shoff : Nat
  e_flags : Nat
  e_ehsize : Nat
  e_phentsize : Nat
  e_phnum : Nat
  e_shentsize : Nat
  e_shnum : Nat
  e_shstrndx : Nat
deriving DecidableEq, Repr

/-- `SectionHeader` from src/elf/section.rs. -/
structure SectionHeader where
  name_offset : Nat
  sh_type : Nat
  flags : Nat
  addr : Nat
  offset : Nat
  size : Nat
  link : Nat
  info : Nat
  addralign : Nat
  entsize : Nat
deriving DecidableEq, Repr

/-- `Symbol` from src/elf/symbol.rs. -/
structure Symbol where
  name_offset : Nat
  info : Nat
  other : Nat
  shndx : Nat
  value : Nat
  size : Nat
deriving DecidableEq, Repr

/-- `Symbol::get_bind`: the high nibble of the info byte. -/
def Symbol.get_bind (s : Symbol) : Nat := s.info >>> 4

/-- `Rela` from src/elf/relocation.rs (`addend` is a signed 64-bit value). -/
structure Rela where
  offset : Nat
  info : Nat
  addend : Int
deriving DecidableEq, Repr

/-- `Rela::get_symbol_index`: `(info >> 32) as u32`. -/
def Rela.get_symbol_index (r : Rela) : Nat := (r.info >>> 32) % 2 ^ 32

/-- `Rela::get_type`: `(info & 0xFFFFFFFF) as u32`. -/
def Rela.get_type (r : Rela) : Nat := r.info % 2 ^ 32

def SHT_PROGBITS : Nat := 1
def SHT_SYMTAB : Nat := 2
def SHT_RELA : Nat := 4
def SHT_NOBITS : Nat := 8
def R_AARCH64_PREL32 : Nat := 261
def R_AARCH64_CALL26 : Nat := 283

/-! ## Binary decoder (src/elf) -/

/-- Sequentially read a list of little-endian fields of the given widths. -/
def readFields : List Nat → Bytes → Option (List Nat × Bytes)
  | [], bs => some ([], bs)
  | w :: ws, bs =>
    match readLE w bs with
    | some (v, rest) =>
      match readFields ws rest with
      | some (vs, r2) => some (v :: vs, r2)
      | none => none
    | none => none

/-- `parse_elf_header` (src/elf/header.rs): checks the 4 magic bytes, then
decodes the remaining e_ident bytes (class, data, version, osabi, abiversion,
7 padding bytes) and the little-endian fields.  No check of class, data
encoding or machine is performed. -/
def parse_elf_header (input : Bytes) : Option (ElfHeader × Bytes) :=
  match input with
  | m0 :: m1 :: m2 :: m3 :: r0 =>
    if m0 = 0x7f ∧ m1 = 0x45 ∧ m2 = 0x4c ∧ m3 = 0x46 then
      match readFields [1, 1, 1, 1, 1] r0 with
      | some ([eclass, edata, version, os_abi, abi_version], r5) =>
        if 7 ≤ r5.length then
          match readFields [2, 2, 4, 8, 8, 8, 4, 2, 2, 2, 2, 2, 2] (r5.drop 7) with
          | some ([e_type, e_machine, e_version, e_entry, e_phoff, e_shoff, e_flags,
              e_ehsize, e_phentsize, e_phnum, e_shentsize, e_shnum, e_shstrndx], rest) =>
            some (⟨eclass, edata, version, os_abi, abi_version, e_type, e_machine,
              e_version, e_entry, e_phoff, e_shoff, e_flags, e_ehsize, e_phentsize,
              e_phnum, e_shentsize, e_shnum, e_shstrndx⟩, rest)
          | _ => none
        else none
      | _ => none
    else none
  | _ => none

/-- One 64-byte section header record (src/elf/section.rs `parse_section_header`). -/
def parse_section_header (input : Bytes) : Option (SectionHeader × Bytes) :=
  match readFields [4, 4, 8, 8, 8, 8, 4, 4, 8, 8] input with
  | some ([name_offset, sh_type, flags, addr, offset, size, link, info, addralign,
      entsize], rest) =>
    some (⟨name_offset, sh_type, flags, addr, offset, size, link, info, addralign,
      entsize⟩, rest)
  | _ => none

/-- `nom::multi::count`: parse exactly `n` records. -/
def parseCount {α : Type _} (p : Bytes → Option (α × Bytes)) : Nat → Bytes → Option (List α × Bytes)
  | 0, bs => some ([], bs)
  | n + 1, bs => do
    let (a, bs1) ← p bs
    let (as_, bs2) ← parseCount p n bs1
    pure (a :: as_, bs2)

/-- `parse_section_header_table` (src/elf/section.rs): `e_shnum` records
starting at `e_shoff`. -/
def parse_section_header_table (file : Bytes) (h : ElfHeader) :
    Option (List SectionHeader × Bytes) := do
  let tbl ← sliceFrom file h.e_shoff
  parseCount parse_section_header h.e_shnum tbl

/-- `get_section_name` (src/elf/section.rs). -/
def get_section_name (shstrtab : Bytes) (sh : SectionHeader) : Option Name :=
  if shstrtab.length ≤ sh.name_offset then none
  else
    match takeUntilNul (shstrtab.drop sh.name_offset) with
    | some bs => if isValidUtf8 bs then some bs else none
    | none => none

/-- One 24-byte symbol record (src/elf/symbol.rs `parse_symbol`). -/
def parse_symbol (input : Bytes) : Option (Symbol × Bytes) :=
  match readFields [4, 1, 1, 2, 8, 8] input with
  | some ([name_offset, info, other, shndx, value, size], rest) =>
    some (⟨name_offset, info, other, shndx, value, size⟩, rest)
  | _ => none

/-- `parse_symbol_table` (src/elf/symbol.rs): requires a non-zero `entsize`
dividing `size`, then parses `size / entsize` records from `offset`. -/
def parse_symbol_table (file : Bytes) (h : SectionHeader) :
    Option (List Symbol × Bytes) :=
  if h.entsize = 0 ∨ h.size % h.entsize ≠ 0 then none
  else do
    let tbl ← sliceFrom file h.offset
    parseCount parse_symbol (h.size / h.entsize) tbl

/-- `get_symbol_name` (src/elf/symbol.rs). -/
def get_symbol_name (strtab : Bytes) (sym : Symbol) : Option Name :=
  if strtab.length ≤ sym.name_offset then none
  else
    match takeUntilNul (strtab.drop sym.name_offset) with
    | some bs => if isValidUtf8 bs then some bs else none
    | none => none

/-- Reinterpret an unsigned 64-bit value as a signed one (an `i64` load). -/
def toI64 (n : Nat) : Int :=
  if n % 2 ^ 64 < 2 ^ 63 then (n % 2 ^ 64 : Nat) else (n % 2 ^ 64 : Nat) - 2 ^ 64

/-- One 24-byte RELA record (src/elf/relocation.rs `parse_rela_entry`);
the addend is decoded as a signed 64-bit value (`le_i64`). -/
def parse_rela_entry (input : Bytes) : Option (Rela × Bytes) :=
  match readFields [8, 8, 8] input with
  | some ([offset, info, addend], rest) => some (⟨offset, info, toI64 addend⟩, rest)
  | _ => none

/-- `parse_rela_table` (src/elf/relocation.rs). -/
def parse_rela_table (file : Bytes) (h : SectionHeader) :
    Option (List Rela × Bytes) :=
  if h.entsize = 0 ∨ h.size % h.entsize ≠ 0 then none
  else do
    let tbl ← sliceFrom file h.offset
    parseCount parse_rela_entry (h.size / h.entsize) tbl

/-! ## Linker data model (src/linker.rs) -/

/-- `InputFile`: the per-file bundle built by `add_file`. -/
structure InputFile where
  content : Bytes
  header : ElfHeader
  sections : List SectionHeader
  symbols : List Symbol
  shstrtab_data : Bytes
  strtab_data : Bytes
deriving DecidableEq, Repr

/-- `OutputSection`: a merged section keyed by name. -/
structure OutputSection where
  name : Name
  header : SectionHeader
  data : Bytes
deriving DecidableEq, Repr

/-- `ProgramHeader` from src/linker.rs. -/
structure ProgramHeader where
  p_type : Nat
  flags : Nat
  offset : Nat
  vaddr : Nat
  paddr : Nat
  filesz : Nat
  memsz : Nat
  align : Nat
deriving DecidableEq, Repr

/-- `LinkerContext`: the output-section map and global-symbol map are
association lists (insertion order), the input-section offset table maps
`(file index, section index)` pairs to byte offsets. -/
structure LinkerContext where
  input_files : List InputFile
  output_sections : List OutputSection
  global_symbols : List (Name × Nat)
  current_addr : Nat
  input_section_offsets : List ((Nat × Nat) × Nat)
deriving DecidableEq, Repr

/-- Look up an output section by name (models `output_sections.get(name)`). -/
def lookupOut : List OutputSection → Name → Option OutputSection
  | [], _ => none
  | o :: rest, n => if o.name = n then some o else lookupOut rest n

/-- `add_file` (src/linker.rs lines 75–99).  Every `unwrap`, indexing, or
slicing failure is a panic, modelled as `none`.  The symbol table section is
required to exist (`find(...).unwrap()`). -/
def add_file (content : Bytes) : Option InputFile := do
  let (header, _) ← parse_elf_header content
  let (sections, _) ← parse_section_header_table content header
  let shstrtab_h ← sections[header.e_shstrndx]?
  let shstrtab_data ← slice content shstrtab_h.offset (shstrtab_h.offset + shstrtab_h.size)
  let symtab_h ← sections.find? (fun h => h.sh_type = SHT_SYMTAB)
  let strtab_h ← sections[symtab_h.link]?
  let strtab_data ← slice content strtab_h.offset (strtab_h.offset + strtab_h.size)
  let (symbols, _) ← parse_symbol_table content symtab_h
  pure ⟨content, header, sections, symbols, shstrtab_data, strtab_data⟩

/-! ## Layout engine (src/linker.rs `layout_and_merge_sections`) -/

def SHF_ALLOC : Nat := 0x2

/-- `".rel"` as bytes. -/
def dotRelName : Name := [0x2e, 0x72, 0x65, 0x6c]

/-- `".text"`, `".rodata"`, `".data"`, `".bss"` as byte names. -/
def textName : Name := [0x2e, 0x74, 0x65, 0x78, 0x74]

def rodataName : Name := [0x2e, 0x72, 0x6f, 0x64, 0x61, 0x74, 0x61]

def dataName : Name := [0x2e, 0x64, 0x61, 0x74, 0x61]

def bssName : Name := [0x2e, 0x62, 0x73, 0x73]

/-- Phase 1 accumulation step: `entry(name).or_insert_with(new).size += size`.
A fresh entry copies the input header with `size` reset (then immediately
accumulated), and an empty data buffer. -/
def addToOutput (outs : List OutputSection) (n : Name) (sec : SectionHeader) :
    List OutputSection :=
  if (lookupOut outs n).isSome then
    outs.map fun o =>
      if o.name = n then { o with header := { o.header with size := o.header.size + sec.size } }
      else o
  else outs ++ [⟨n, { sec with size := sec.size }, []⟩]

/-- Phase 1, one input section: only `SHT_PROGBITS`/`SHT_NOBITS` sections with
a non-empty name and the `SHF_ALLOC` flag contribute; a `.rel*` name panics
(`none`). -/
def phase1Step (shstrtab : Bytes) (outs : List OutputSection) (sec : SectionHeader) :
    Option (List OutputSection) :=
  if sec.sh_type = SHT_PROGBITS ∨ sec.sh_type = SHT_NOBITS then
    let n := (get_section_name shstrtab sec).getD []
    if n = [] then some outs
    else if dotRelName.isPrefixOf n then none
    else if sec.flags &&& SHF_ALLOC = 0 then some outs
    else some (addToOutput outs n sec)
  else some outs

/-- Phase 1 over one file's section list. -/
def phase1File (outs : List OutputSection) (f : InputFile) :
    Option (List OutputSection) :=
  f.sections.foldlM (phase1Step f.shstrtab_data) outs

/-- Phase 1 over all input files. -/
def phase1 (files : List InputFile) : Option (List OutputSection) :=
  files.foldlM phase1File []

/-- Section name priority used for the layout sort. -/
def sectionPrio (n : Name) : Nat :=
  if n = textName then 0
  else if n = rodataName then 1
  else if n = dataName then 2
  else if n = bssName then 3
  else 4

/-- The stable sort by name priority (`sort_by_key`), modelled with a stable
insertion sort. -/
def sortByPrio (outs : List OutputSection) : List OutputSection :=
  List.insertionSort (fun a b => sectionPrio a.name ≤ sectionPrio b.name) outs

/-- `(cur + align - 1) & !(align - 1)` on u64 (the complement is taken in 64
bits, so the mask is `2^64 - align`); applied only when `align > 0`. -/
def alignCursor (cur align : Nat) : Nat :=
  if 0 < align then (cur + align - 1) &&& (2 ^ 64 - align) else cur

/-- Phase 2: walk the priority-sorted sections, aligning the cursor, assigning
`addr`, allocating a zero-filled buffer of length `size`, and advancing the
cursor by `size`.  Returns the final cursor and the updated sections. -/
def assignAddrs (cur : Nat) : List OutputSection → Nat × List OutputSection
  | [] => (cur, [])
  | o :: rest =>
    let a := alignCursor cur o.header.addralign
    let o' : OutputSection :=
      { o with header := { o.header with addr := a },
               data := List.replicate o.header.size 0 }
    let (endCur, rest') := assignAddrs (a + o.header.size) rest
    (endCur, o' :: rest')

/-- Reserved header bytes: one ELF header (64) plus two program headers (2·56). -/
def headersTotalSize : Nat := 64 + 2 * 56

/-- Phases 1 and 2 of `layout_and_merge_sections`: build output sections,
advance the cursor past the reserved headers, sort, and assign addresses. -/
def layoutPhase12 (files : List InputFile) : Option (Nat × List OutputSection) := do
  let outs ← phase1 files
  pure (assignAddrs (0x400000 + headersTotalSize) (sortByPrio outs))

/-! ## Layout phase 3 — data copy -/

/-- Replace the value under a key, or append it (used for
`entry(name).or_insert(0)` followed by an update). -/
def setAssoc {κ α : Type _} [DecidableEq κ] (m : List (κ × α)) (k : κ) (v : α) :
    List (κ × α) :=
  if (lookupAssoc m k).isSome then m.map fun p => if p.1 = k then (p.1, v) else p
  else m ++ [(k, v)]

/-- Overwrite `d[pos .. pos + src.length]` with `src`. -/
def writeBytes (d : Bytes) (pos : Nat) (src : Bytes) : Bytes :=
  d.take pos ++ src ++ d.drop (pos + src.length)

/-- Replace the data buffer of the output section named `n`. -/
def updateOutData (outs : List OutputSection) (n : Name) (newData : Bytes) :
    List OutputSection :=
  outs.map fun o => if o.name = n then { o with data := newData } else o

/-- The nested iteration of phase 3 and of the symbol resolver: input files in
order, inner items in index order, with file indices attached. -/
def flattenEnum (files : List InputFile) : List (Nat × InputFile × Nat × SectionHeader) :=
  files.enum.flatMap fun p => p.2.sections.enum.map fun q => (p.1, p.2, q.1, q.2)

/-- State of the data-copy loop: the per-name offset counters, the
input-section offset table, and the output sections. -/
structure CopySt where
  offsets : List (Name × Nat)
  iso : List ((Nat × Nat) × Nat)
  outs : List OutputSection
deriving DecidableEq, Repr

/-- Phase 3, one input section: a `SHT_PROGBITS` section whose name matches an
output section records the current per-name counter in the offset table,
copies its bytes, and advances the counter.  Out-of-range source or
destination ranges panic (`none`). -/
def copyStep (st : CopySt) (e : Nat × InputFile × Nat × SectionHeader) : Option CopySt :=
  let (fi, f, si, sec) := e
  if sec.sh_type = SHT_PROGBITS then
    let n := (get_section_name f.shstrtab_data sec).getD []
    match lookupOut st.outs n with
    | none => some st
    | some o =>
      let cur := (lookupAssoc st.offsets n).getD 0
      match slice f.content sec.offset (sec.offset + sec.size) with
      | none => none
      | some src =>
        if cur + sec.size ≤ o.data.length then
          some ⟨setAssoc st.offsets n (cur + sec.size), st.iso ++ [((fi, si), cur)],
            updateOutData st.outs n (writeBytes o.data cur src)⟩
        else none
  else some st

/-- Phase 3 main loop. -/
def copyList : List (Nat × InputFile × Nat × SectionHeader) → CopySt → Option CopySt
  | [], st => some st
  | e :: rest, st =>
    match copyStep st e with
    | some st' => copyList rest st'
    | none => none

/-- Phase 3 of `layout_and_merge_sections` (lines 168–198): counters start
empty, the offset table starts empty. -/
def copyPhase (files : List InputFile) (outs : List OutputSection) : Option CopySt :=
  copyList (flattenEnum files) ⟨[], [], outs⟩

/-! ## Symbol resolver (src/linker.rs `resolve_symbols`) -/

/-- The symbol iteration order: input files in order, symbols in table order. -/
def flattenSyms (files : List InputFile) : List (Nat × InputFile × Symbol) :=
  files.enum.flatMap fun p => p.2.symbols.map fun s => (p.1, p.2, s)

/-- One symbol of `resolve_symbols`: a GLOBAL-binding symbol with a non-empty
name not already in the map, a section index in `(0, len)`, a section whose
name resolves (`unwrap`, panic otherwise) and matches an output section is
inserted with `output.addr + input_section_offset + value`. -/
def resolveStep (outs : List OutputSection) (iso : List ((Nat × Nat) × Nat))
    (g : List (Name × Nat)) (e : Nat × InputFile × Symbol) : Option (List (Name × Nat)) :=
  let (fi, f, sym) := e
  if sym.get_bind = 1 then
    let n := (get_symbol_name f.strtab_data sym).getD []
    if n = [] ∨ (lookupAssoc g n).isSome then some g
    else if 0 < sym.shndx ∧ sym.shndx < f.sections.length then
      match f.sections[sym.shndx]? with
      | none => some g
      | some sec =>
        match get_section_name f.shstrtab_data sec with
        | none => none
        | some sname =>
          match lookupOut outs sname with
          | none => some g
          | some osec =>
            let off := (lookupAssoc iso (fi, sym.shndx)).getD 0
            some (g ++ [(n, osec.header.addr + off + sym.value)])
    else some g
  else some g

/-- The resolver main loop. -/
def resolveList (outs : List OutputSection) (iso : List ((Nat × Nat) × Nat)) :
    List (Nat × InputFile × Symbol) → List (Name × Nat) → Option (List (Name × Nat))
  | [], g => some g
  | e :: rest, g =>
    match resolveStep outs iso g e with
    | some g' => resolveList outs iso rest g'
    | none => none

/-- `resolve_symbols`: run the resolver over all files starting from the empty
map. -/
def resolve_symbols (outs : List OutputSection) (iso : List ((Nat × Nat) × Nat))
    (files : List InputFile) : Option (List (Name × Nat)) :=
  resolveList outs iso (flattenSyms files) []

/-- The value a single symbol would define: `some (name, final_addr)` exactly
when the symbol satisfies all the insertion conditions of `resolveStep`
(ignoring the first-writer check). -/
def defValue (outs : List OutputSection) (iso : List ((Nat × Nat) × Nat))
    (e : Nat × InputFile × Symbol) : Option (Name × Nat) :=
  let (fi, f, sym) := e
  if sym.get_bind = 1 then
    let n := (get_symbol_name f.strtab_data sym).getD []
    if n = [] then none
    else if 0 < sym.shndx ∧ sym.shndx < f.sections.length then
      match f.sections[sym.shndx]? with
      | none => none
      | some sec =>
        match get_section_name f.shstrtab_data sec with
        | none => none
        | some sname =>
          match lookupOut outs sname with
          | none => none
          | some osec =>
            some (n, osec.header.addr + (lookupAssoc iso (fi, sym.shndx)).getD 0 + sym.value)
    else none
  else none

/-- The value of the first qualifying definition of `n` in scan order. -/
def firstGlobalDef (outs : List OutputSection) (iso : List ((Nat × Nat) × Nat))
    (files : List InputFile) (n : Name) : Option Nat :=
  lookupAssoc ((flattenSyms files).filterMap (defValue outs iso)) n

/-! ## Relocation engine (src/linker.rs `apply_relocations`) -/

/-- `x.wrapping_sub(y)` on u64. -/
def wsub64 (x y : Nat) : Nat := (x + (2 ^ 64 - y % 2 ^ 64)) % 2 ^ 64

/-- `i as u64` for a signed 64-bit value. -/
def i64ToU64 (i : Int) : Nat := (i % (2 ^ 64)).toNat

/-- `u32::from_le_bytes` of `d[pos..pos+4]`. -/
def read4 (d : Bytes) (pos : Nat) : Nat :=
  d.getD pos 0 + 256 * (d.getD (pos + 1) 0 + 256 * (d.getD (pos + 2) 0 +
    256 * d.getD (pos + 3) 0))

/-- The CALL26 patch (lines 303–331): `offset = (S+A).wrapping_sub(P)`;
`imm26 = (offset as i64 >> 2) & 0x03FFFFFF` (`>>` on i64 is an arithmetic
shift, i.e. floor division by 4; the mask keeps the non-negative low 26 bits);
the instruction word keeps its high 6 bits and receives `imm26`. -/
def patchCall26 (data : Bytes) (pos : Nat) (s a64 p : Nat) : Option Bytes :=
  if pos + 4 ≤ data.length then
    let offset := wsub64 (s + a64) p
    let imm26 := ((Int.fdiv (toI64 offset) 4) % (2 ^ 26)).toNat
    let instr := read4 data pos
    let instr' := (instr &&& 0xFC000000) ||| imm26
    some (writeBytes data pos (toLeBytes 4 instr'))
  else none

/-- The PREL32 patch (lines 332–344): store `(S+A).wrapping_sub(P) as u32`
little-endian. -/
def patchPrel32 (data : Bytes) (pos : Nat) (s a64 p : Nat) : Option Bytes :=
  if pos + 4 ≤ data.length then
    some (writeBytes data pos (toLeBytes 4 (wsub64 (s + a64) p % 2 ^ 32)))
  else none

/-- One RELA entry (lines 268–346).  A symbol whose name has no entry in the
global map is skipped (`some data`, bytes unchanged).  Only types 283
(CALL26) and 261 (PREL32) patch anything; every other type falls through
with the bytes unchanged. -/
def applyOne (f : InputFile) (fi tgt : Nat) (iso : List ((Nat × Nat) × Nat))
    (g : List (Name × Nat)) (outAddr : Nat) (data : Bytes) (rela : Rela) :
    Option Bytes :=
  match f.symbols[rela.get_symbol_index]? with
  | none => none
  | some symbol =>
    match get_symbol_name f.strtab_data symbol with
    | none => none
    | some n =>
      match lookupAssoc g n with
      | none => some data
      | some s =>
        let off := (lookupAssoc iso (fi, tgt)).getD 0
        let p := outAddr + off + rela.offset
        let a64 := i64ToU64 rela.addend
        if rela.get_type = R_AARCH64_CALL26 then
          patchCall26 data (off + rela.offset) s a64 p
        else if rela.get_type = R_AARCH64_PREL32 then
          patchPrel32 data (off + rela.offset) s a64 p
        else some data

/-- All RELA entries of one relocation section, in order. -/
def applyRelaList (f : InputFile) (fi tgt : Nat) (iso : List ((Nat × Nat) × Nat))
    (g : List (Name × Nat)) (outAddr : Nat) :
    List Rela → Bytes → Option Bytes
  | [], d => some d
  | r :: rest, d =>
    match applyOne f fi tgt iso g outAddr d r with
    | some d' => applyRelaList f fi tgt iso g outAddr rest d'
    | none => none

/-- One input file of `apply_relocations`: every `SHT_RELA` section targets
section `info`; the target's name is resolved (`unwrap`) and, when it matches
an output section, the parsed RELA entries patch that section's data. -/
def applyFileRelocs (iso : List ((Nat × Nat) × Nat)) (g : List (Name × Nat))
    (fi : Nat) (f : InputFile) (outs : List OutputSection) :
    Option (List OutputSection) :=
  (f.sections.filter fun s => s.sh_type = SHT_RELA).foldlM
    (fun outs sec => do
      let tgtSec ← f.sections[sec.info]?
      let tname ← get_section_name f.shstrtab_data tgtSec
      match lookupOut outs tname with
      | none => pure outs
      | some o => do
        let (relas, _) ← parse_rela_table f.content sec
        let d' ← applyRelaList f fi sec.info iso g o.header.addr relas o.data
        pure (updateOutData outs tname d'))
    outs

/-- `apply_relocations` over all input files. -/
def apply_relocations (iso : List ((Nat × Nat) × Nat)) (g : List (Name × Nat))
    (files : List InputFile) (outs : List OutputSection) :
    Option (List OutputSection) :=
  files.enum.foldlM (fun outs p => applyFileRelocs iso g p.1 p.2 outs) outs

/-! ## Executable emitter (src/linker.rs `write_executable`) -/

/-- `align_up` (src/linker.rs line 523): `(addr + page - 1) & !(page - 1)`
with the complement taken in 64 bits. -/
def align_up (addr pageSize : Nat) : Nat :=
  (addr + pageSize - 1) &&& (2 ^ 64 - pageSize)

/-- The emit-time sort of output sections by assigned address (`sort_by_key`),
modelled with a stable insertion sort. -/
def sortByAddr (outs : List OutputSection) : List OutputSection :=
  List.insertionSort (fun a b => a.header.addr ≤ b.header.addr) outs

/-- Segment computation of `write_executable` (lines 395–456): sections with
`SHF_EXECINSTR` (0x4) form the code segment, the rest the data segment. -/
def computeSegments (outs : List OutputSection) : ProgramHeader × ProgramHeader :=
  let sorted := sortByAddr outs
  let codeSections := sorted.filter fun s => s.header.flags &&& 0x4 ≠ 0
  let dataSections := sorted.filter fun s => s.header.flags &&& 0x4 = 0
  let codeFilesz := headersTotalSize + (codeSections.map (·.header.size)).sum
  let codeMemsz := codeFilesz
  let dataVaddr := align_up (0x400000 + codeMemsz) 0x1000
  let dataOff := align_up codeFilesz 0x1000
  let dataFilesz :=
    ((dataSections.filter fun s => s.header.sh_type ≠ SHT_NOBITS).map (·.header.size)).sum
  let dataMemsz := (dataSections.map (·.header.size)).sum
  (⟨1, 4 ||| 1, align_up 0 0x1000, align_up 0x400000 0x1000, align_up 0x400000 0x1000,
      codeFilesz, codeMemsz, 0x1000⟩,
   ⟨1, 4 ||| 2, dataOff, dataVaddr, dataVaddr, dataFilesz, dataMemsz, 0x1000⟩)

/-- `"_start"` and `"main"` as byte names. -/
def startName : Name := [0x5f, 0x73, 0x74, 0x61, 0x72, 0x74]

def mainEntryName : Name := [0x6d, 0x61, 0x69, 0x6e]

/-- The ELF header serialisation of `write_executable` (lines 472–486): a
literal 16-byte e_ident followed by the little-endian fields. -/
def serializeElfHeader (h : ElfHeader) : Bytes :=
  [0x7f, 0x45, 0x4c, 0x46, 2, 1, 1, 0, 0, 0, 0, 0, 0, 0, 0, 0] ++
  toLeBytes 2 h.e_type ++ toLeBytes 2 h.e_machine ++ toLeBytes 4 h.e_version ++
  toLeBytes 8 h.e_entry ++ toLeBytes 8 h.e_phoff ++ toLeBytes 8 h.e_shoff ++
  toLeBytes 4 h.e_flags ++ toLeBytes 2 h.e_ehsize ++ toLeBytes 2 h.e_phentsize ++
  toLeBytes 2 h.e_phnum ++ toLeBytes 2 h.e_shentsize ++ toLeBytes 2 h.e_shnum ++
  toLeBytes 2 h.e_shstrndx

/-- One program header's bytes (lines 489–498). -/
def serializeProgramHeader (p : ProgramHeader) : Bytes :=
  toLeBytes 4 p.p_type ++ toLeBytes 4 p.flags ++ toLeBytes 8 p.offset ++
  toLeBytes 8 p.vaddr ++ toLeBytes 8 p.paddr ++ toLeBytes 8 p.filesz ++
  toLeBytes 8 p.memsz ++ toLeBytes 8 p.align

/-- `write_executable` (lines 352–520): entry point is `_start` falling back
to `main` (`unwrap` panic if neither), the output header is the first input's
header with the executable fields rewritten, and the image is headers,
padding, code-section data, padding, then non-NOBITS data-section data. -/
def write_executable (outs : List OutputSection) (g : List (Name × Nat))
    (firstHeader : ElfHeader) : Option Bytes := do
  let entry ← (lookupAssoc g startName).orElse fun _ => lookupAssoc g mainEntryName
  let (codeH, dataH) := computeSegments outs
  let sorted := sortByAddr outs
  let codeSections := sorted.filter fun s => s.header.flags &&& 0x4 ≠ 0
  let dataSections := sorted.filter fun s => s.header.flags &&& 0x4 = 0
  let outHeader : ElfHeader :=
    { firstHeader with
      e_type := 2, e_entry := entry, e_phoff := 64, e_phnum := 2,
      e_phentsize := 56, e_shoff := 0, e_shnum := 0, e_shstrndx := 0 }
  let b0 := serializeElfHeader outHeader ++ serializeProgramHeader codeH ++
    serializeProgramHeader dataH
  let b1 := b0 ++ List.replicate (codeH.offset - b0.length) 0
  let b2 := b1 ++ (codeSections.map (·.data)).flatten
  let b3 := b2 ++ List.replicate (dataH.offset - b2.length) 0
  let b4 := b3 ++ ((dataSections.filter fun s => s.header.sh_type ≠ SHT_NOBITS).map
    (·.data)).flatten
  pure b4

/-! ## Basic lemmas about the byte and map utilities -/

theorem readLE_eq_some (w : Nat) : ∀ bs : Bytes, w ≤ bs.length →
    ∃ v, readLE w bs = some (v, bs.drop w) := by
  induction w with
  | zero => intro bs _; exact ⟨0, rfl⟩
  | succ n ih =>
    intro bs h
    cases bs with
    | nil => simp at h
    | cons b rest =>
      obtain ⟨v, hv⟩ := ih rest (by simpa using h)
      exact ⟨b + 256 * v, by simp [readLE, hv]⟩

theorem readLE_rest (w : Nat) : ∀ (bs : Bytes) (v : Nat) (rest : Bytes),
    readLE w bs = some (v, rest) → rest = bs.drop w := by
  induction w with
  | zero => intro bs v rest h; simp [readLE] at h; simpa using h.2.symm
  | succ n ih =>
    intro bs v rest h
    cases bs with
    | nil => simp [readLE] at h
    | cons b tl =>
      simp only [readLE] at h
      cases htl : readLE n tl with
      | none => rw [htl] at h; simp at h
      | some p =>
        rw [htl] at h
        obtain ⟨v', rest'⟩ := p
        simp at h
        simpa [← h.2] using ih tl v' rest' htl

theorem readLE_lt (w : Nat) : ∀ (bs : Bytes) (v : Nat) (rest : Bytes),
    (∀ b ∈ bs, b < 256) → readLE w bs = some (v, rest) → v < 256 ^ w := by
  induction w with
  | zero => intro bs v rest _ h; simp [readLE] at h; omega
  | succ n ih =>
    intro bs v rest hb h
    cases bs with
    | nil => simp [readLE] at h
    | cons b tl =>
      simp only [readLE] at h
      cases htl : readLE n tl with
      | none => rw [htl] at h; simp at h
      | some p =>
        rw [htl] at h
        obtain ⟨v', rest'⟩ := p
        simp at h
        have hv' : v' < 256 ^ n := ih tl v' rest' (fun x hx => hb x (List.mem_cons_of_mem _ hx)) htl
        have hbb : b < 256 := hb b (List.mem_cons_self b tl)
        have hlt : b + 256 * v' < 256 ^ (n + 1) := by
          have h2 : 256 * v' + 256 ≤ 256 * 256 ^ n := by omega
          calc b + 256 * v' < 256 * v' + 256 := by omega
            _ ≤ 256 * 256 ^ n := h2
            _ = 256 ^ (n + 1) := by ring
        omega

theorem readLE_toLeBytes (w : Nat) : ∀ (v : Nat) (rest : Bytes), v < 256 ^ w →
    readLE w (toLeBytes w v ++ rest) = some (v, rest) := by
  induction w with
  | zero =>
    intro v rest h
    have : v = 0 := by simpa using h
    simp [this, toLeBytes, readLE]
  | succ n ih =>
    intro v rest h
    have hdiv : v / 256 < 256 ^ n := by
      rw [Nat.div_lt_iff_lt_mul (by norm_num)]
      calc v < 256 ^ (n + 1) := h
        _ = 256 ^ n * 256 := by ring
    simp [toLeBytes, readLE, ih (v / 256) rest hdiv, Nat.mod_add_div]

theorem toLeBytes_length (w v : Nat) : (toLeBytes w v).length = w := by
  induction w generalizing v with
  | zero => rfl
  | succ n ih => simp [toLeBytes, ih]

theorem toLeBytes_lt (w v : Nat) : ∀ b ∈ toLeBytes w v, b < 256 := by
  induction w generalizing v with
  | zero => simp [toLeBytes]
  | succ n ih =>
    intro b hb
    simp only [toLeBytes, List.mem_cons] at hb
    rcases hb with h | h
    · omega
    · exact ih _ b h

theorem lookupAssoc_append {κ α : Type _} [DecidableEq κ] (l₁ l₂ : List (κ × α)) (k : κ) :
    lookupAssoc (l₁ ++ l₂) k = ((lookupAssoc l₁ k).orElse fun _ => lookupAssoc l₂ k) := by
  induction l₁ with
  | nil => simp [lookupAssoc]
  | cons p rest ih =>
    by_cases h : p.1 = k
    · simp [lookupAssoc, h]
    · simpa [lookupAssoc, h] using ih

theorem lookupAssoc_eq_none {κ α : Type _} [DecidableEq κ] (l : List (κ × α)) (k : κ) :
    lookupAssoc l k = none ↔ k ∉ l.map Prod.fst := by
  induction l with
  | nil => simp [lookupAssoc]
  | cons p rest ih =>
    by_cases h : p.1 = k
    · simp [lookupAssoc, h]
    · simp only [lookupAssoc, if_neg h, List.map_cons, List.mem_cons]
      rw [ih]
      constructor
      · intro hn hm
        rcases hm with hm | hm
        · exact h hm.symm
        · exact hn hm
      · intro hn hm
        exact hn (Or.inr hm)

theorem lookupAssoc_isSome_of_mem {κ α : Type _} [DecidableEq κ] (l : List (κ × α)) (k : κ)
    (h : k ∈ l.map Prod.fst) : (lookupAssoc l k).isSome := by
  cases hl : lookupAssoc l k with
  | none => exact absurd ((lookupAssoc_eq_none l k).mp hl) (by simpa using h)
  | some v => rfl

/-! ## C5 — emitted program-header fields -/

theorem sortByAddr_perm (outs : List OutputSection) : (sortByAddr outs).Perm outs :=
  List.perm_insertionSort _ outs

theorem filter_map_sum_sortByAddr (outs : List OutputSection) (p : OutputSection → Bool) :
    (((sortByAddr outs).filter p).map fun o => o.header.size).sum =
    ((outs.filter p).map fun o => o.header.size).sum :=
  (((sortByAddr_perm outs).filter p).map _).sum_eq

/-- C5: in the emitted executable, the code `PT_LOAD` header has
`filesz = memsz = 176 + Σ code-section sizes` (sections with `SHF_EXECINSTR`),
and the data `PT_LOAD` header has `vaddr = align_up(0x400000 + code_memsz,
0x1000)`, `offset = align_up(code_filesz, 0x1000)`, `filesz = Σ` sizes of
non-`SHT_NOBITS` data sections, and `memsz = Σ` sizes of all data sections. -/
theorem write_executable_segment_fields (outs : List OutputSection) :
    (computeSegments outs).1.filesz =
      176 + ((outs.filter fun s => s.header.flags &&& 0x4 ≠ 0).map
        fun s => s.header.size).sum ∧
    (computeSegments outs).1.memsz = (computeSegments outs).1.filesz ∧
    (computeSegments outs).2.vaddr =
      align_up (0x400000 + (computeSegments outs).1.memsz) 0x1000 ∧
    (computeSegments outs).2.offset = align_up (computeSegments outs).1.filesz 0x1000 ∧
    (computeSegments outs).2.filesz =
      (((outs.filter fun s => s.header.flags &&& 0x4 = 0).filter
        fun s => s.header.sh_type ≠ SHT_NOBITS).map fun s => s.header.size).sum ∧
    (computeSegments outs).2.memsz =
      ((outs.filter fun s => s.header.flags &&& 0x4 = 0).map fun s => s.header.size).sum := by
  refine ⟨?_, rfl, rfl, rfl, ?_, ?_⟩
  · simp only [computeSegments, headersTotalSize]
    rw [filter_map_sum_sortByAddr]
  · simp only [computeSegments]
    have h := ((((sortByAddr_perm outs).filter
      (fun s => s.header.flags &&& 0x4 = 0)).filter
      (fun s => s.header.sh_type ≠ SHT_NOBITS)).map fun o => o.header.size).sum_eq
    exact h
  · simp only [computeSegments]
    rw [filter_map_sum_sortByAddr]

/-! ## C1 / C7 — which relocation types patch, and missing-symbol skipping -/

/-- Concrete fixtures for the relocation engine: a file whose symbol 0 is
named `foo`, and a global map resolving `foo`. -/
def fooName : Name := [0x66, 0x6f, 0x6f]

def strtabFoo : Bytes := [0x66, 0x6f, 0x6f, 0]

def symFoo : Symbol := ⟨0, 0x10, 0, 1, 0, 0⟩

def relocFile : InputFile :=
  ⟨[], ⟨2, 1, 1, 0, 0, 1, 183, 1, 0, 0, 0, 0, 64, 0, 0, 64, 0, 0⟩, [], [symFoo], [], strtabFoo⟩

def gFoo : List (Name × Nat) := [(fooName, 0x400100)]

def relaAbs64 : Rela := ⟨0, 257, 8⟩

def d8 : Bytes := [1, 2, 3, 4, 5, 6, 7, 8]

/-- C1 counterexample: an `R_AARCH64_ABS64` (type 257) entry whose symbol
resolves is NOT patched — the engine leaves the bytes unchanged instead of
storing `S + A` little-endian at `patch_pos`. -/
theorem abs64_not_stored_cex :
    applyOne relocFile 0 0 [] gFoo 0x400000 d8 relaAbs64 = some d8 ∧
    d8.take 8 ≠ toLeBytes 8 (0x400100 + 8) := by
  constructor
  · rfl
  · decide

/-- C1 (amended): for every relocation entry whose symbol resolves, the
engine patches only types 283 (CALL26) and 261 (PREL32); an entry of any
other type — including 257 (ABS64) — leaves the output bytes unchanged. -/
theorem applyOne_skips_unimplemented_types (f : InputFile) (fi tgt : Nat)
    (iso : List ((Nat × Nat) × Nat)) (g : List (Name × Nat)) (outAddr : Nat)
    (d : Bytes) (r : Rela) (sym : Symbol) (n : Name) (s : Nat)
    (h1 : f.symbols[r.get_symbol_index]? = some sym)
    (h2 : get_symbol_name f.strtab_data sym = some n)
    (h3 : lookupAssoc g n = some s)
    (h4 : r.get_type ≠ R_AARCH64_CALL26)
    (h5 : r.get_type ≠ R_AARCH64_PREL32) :
    applyOne f fi tgt iso g outAddr d r = some d := by
  simp [applyOne, h1, h2, h3, h4, h5]

/-- Witness for the C1 amended theorem at a concrete ABS64 entry. -/
theorem applyOne_skips_unimplemented_types_witness :
    applyOne relocFile 0 0 [] gFoo 0x400000 d8 relaAbs64 = some d8 :=
  applyOne_skips_unimplemented_types relocFile 0 0 [] gFoo 0x400000 d8 relaAbs64
    symFoo fooName 0x400100 (by rfl) (by rfl) (by rfl) (by decide) (by decide)

/-- C7: a relocation entry whose symbol name has no entry in the global map
is skipped: the bytes are unchanged, no error is raised, and the remaining
entries are processed as if the entry were absent. -/
theorem missing_symbol_skipped (f : InputFile) (fi tgt : Nat)
    (iso : List ((Nat × Nat) × Nat)) (g : List (Name × Nat)) (outAddr : Nat)
    (d : Bytes) (r : Rela) (rest : List Rela) (sym : Symbol) (n : Name)
    (h1 : f.symbols[r.get_symbol_index]? = some sym)
    (h2 : get_symbol_name f.strtab_data sym = some n)
    (h3 : lookupAssoc g n = none) :
    applyOne f fi tgt iso g outAddr d r = some d ∧
    applyRelaList f fi tgt iso g outAddr (r :: rest) d =
      applyRelaList f fi tgt iso g outAddr rest d := by
  have h : applyOne f fi tgt iso g outAddr d r = some d := by
    simp [applyOne, h1, h2, h3]
  exact ⟨h, by simp [applyRelaList, h]⟩

def relaCall26foo : Rela := ⟨0, 283, 0⟩

/-- Witness for C7 at a concrete CALL26 entry against an empty global map. -/
theorem missing_symbol_skipped_witness :
    applyOne relocFile 0 0 [] [] 0x400000 d8 relaCall26foo = some d8 ∧
    applyRelaList relocFile 0 0 [] [] 0x400000 [relaCall26foo, relaAbs64] d8 =
      applyRelaList relocFile 0 0 [] [] 0x400000 [relaAbs64] d8 :=
  missing_symbol_skipped relocFile 0 0 [] [] 0x400000 d8 relaCall26foo [relaAbs64]
    symFoo fooName (by rfl) (by rfl) (by rfl)

/-! ## C2 — CALL26 decode round-trip -/

/-- The decode procedure of §8 invariant 5: read the little-endian word at
byte `pos` of the section's data, keep the low 26 bits, sign-extend, shift
left by 2 and add the place `secAddr + pos`, reducing modulo 2^64. -/
def decodeCall26 (data : Bytes) (pos secAddr : Nat) : Option Nat :=
  if pos + 4 ≤ data.length then
    let w := read4 data pos
    let low := w &&& 0x03FFFFFF
    let sx : Int := if low < 2 ^ 25 then (low : Int) else (low : Int) - 2 ^ 26
    some (((sx * 4 + secAddr + pos) % (2 ^ 64)).toNat)
  else none

theorem writeBytes_length (d : Bytes) (pos : Nat) (src : Bytes)
    (h : pos + src.length ≤ d.length) :
    (writeBytes d pos src).length = d.length := by
  simp [writeBytes]
  omega

theorem getD_writeBytes (d : Bytes) (pos : Nat) (src : Bytes) (i : Nat)
    (hpos : pos + src.length ≤ d.length) (hi : i < src.length) :
    (writeBytes d pos src).getD (pos + i) 0 = src.getD i 0 := by
  have hlen : (d.take pos).length = pos := by simp; omega
  simp only [writeBytes, List.getD_eq_getElem?_getD, List.append_assoc]
  rw [List.getElem?_append_right (by rw [hlen]; omega)]
  rw [hlen]
  have hsub : pos + i - pos = i := by omega
  rw [hsub, List.getElem?_append_left hi]

theorem read4_writeBytes4 (d : Bytes) (pos v : Nat) (hpos : pos + 4 ≤ d.length) :
    read4 (writeBytes d pos (toLeBytes 4 v)) pos = v % 2 ^ 32 := by
  have hl : (toLeBytes 4 v).length = 4 := toLeBytes_length 4 v
  have h0 := getD_writeBytes d pos (toLeBytes 4 v) 0 (by rw [hl]; omega) (by rw [hl]; omega)
  have h1 := getD_writeBytes d pos (toLeBytes 4 v) 1 (by rw [hl]; omega) (by rw [hl]; omega)
  have h2 := getD_writeBytes d pos (toLeBytes 4 v) 2 (by rw [hl]; omega) (by rw [hl]; omega)
  have h3 := getD_writeBytes d pos (toLeBytes 4 v) 3 (by rw [hl]; omega) (by rw [hl]; omega)
  have e0 : (writeBytes d pos (toLeBytes 4 v)).getD pos 0 = (toLeBytes 4 v).getD 0 0 := by
    simpa using h0
  have htl : toLeBytes 4 v =
      [v % 256, v / 256 % 256, v / 256 / 256 % 256, v / 256 / 256 / 256 % 256] := rfl
  simp only [read4]
  rw [e0, h1, h2, h3, htl]
  simp only [List.getD_cons_zero, List.getD_cons_succ]
  omega

theorem patched_low26 (x imm : Nat) (h : imm < 2 ^ 26) :
    ((x &&& 0xFC000000) ||| imm) &&& 0x03FFFFFF = imm := by
  rw [Nat.and_distrib_right, Nat.and_assoc]
  have h1 : (0xFC000000 : Nat) &&& 0x03FFFFFF = 0 := by decide
  have h2 : (0x03FFFFFF : Nat) = 2 ^ 26 - 1 := by decide
  rw [h1, Nat.and_zero, Nat.zero_or, h2, Nat.and_pow_two_sub_one_eq_mod,
    Nat.mod_eq_of_lt h]

theorem sext26_eq (k : Int) (hlo : -(2 ^ 25) ≤ k) (hhi : k < 2 ^ 25) :
    (if ((k % (2 ^ 26)).toNat : Nat) < 2 ^ 25 then ((k % (2 ^ 26)).toNat : Int)
     else ((k % (2 ^ 26)).toNat : Int) - 2 ^ 26) = k := by
  split <;> omega

theorem toI64_wsub64_addback (x y : Nat) :
    ((toI64 (wsub64 x y) + (y : Int)) % (2 ^ 64)).toNat = x % 2 ^ 64 := by
  unfold toI64 wsub64
  split <;> omega

/-- C2 (amended): after a CALL26 patch at byte `pos` of a section at address
`secAddr`, decoding the low 26 bits of the little-endian word, sign-extending,
shifting left by 2 and adding `secAddr + pos` recovers `S + A` modulo 2^64 —
PROVIDED the wrapped displacement `S + A − P`, read as a signed 64-bit value,
is a multiple of 4 and lies in the signed 28-bit range `[−2^27, 2^27)`.
Without those preconditions the low bits and the high bits of the
displacement are discarded by the patch. -/
theorem call26_decode_roundtrip (data data' : Bytes) (pos s a64 secAddr : Nat)
    (happly : patchCall26 data pos s a64 (secAddr + pos) = some data')
    (hal : toI64 (wsub64 (s + a64) (secAddr + pos)) % 4 = 0)
    (hlo : -(2 ^ 27) ≤ toI64 (wsub64 (s + a64) (secAddr + pos)))
    (hhi : toI64 (wsub64 (s + a64) (secAddr + pos)) < 2 ^ 27) :
    decodeCall26 data' pos secAddr = some ((s + a64) % 2 ^ 64) := by
  obtain ⟨k, hk⟩ : (4 : Int) ∣ toI64 (wsub64 (s + a64) (secAddr + pos)) :=
    Int.dvd_of_emod_eq_zero hal
  simp only [patchCall26] at happly
  split at happly
  case isTrue hlen =>
    rw [hk, Int.mul_fdiv_cancel_left k (by norm_num)] at happly
    have hdata' := (Option.some.inj happly).symm
    have himlt : ((k % (2 ^ 26)).toNat : Nat) < 2 ^ 26 := by
      have h1 := Int.emod_nonneg k (show (2 : Int) ^ 26 ≠ 0 by norm_num)
      have h2 := Int.emod_lt_of_pos k (show (0 : Int) < 2 ^ 26 by norm_num)
      omega
    have hinstrlt : (read4 data pos &&& 0xFC000000) ||| (k % (2 ^ 26)).toNat < 2 ^ 32 :=
      Nat.or_lt_two_pow (lt_of_le_of_lt Nat.and_le_right (by norm_num)) (by omega)
    have hlen4 : pos + (toLeBytes 4 ((read4 data pos &&& 0xFC000000) |||
        (k % (2 ^ 26)).toNat)).length ≤ data.length := by
      rw [toLeBytes_length]; omega
    have hlen' : data'.length = data.length := by
      rw [hdata']; exact writeBytes_length _ _ _ hlen4
    have hread : read4 data' pos =
        (read4 data pos &&& 0xFC000000) ||| (k % (2 ^ 26)).toNat := by
      rw [hdata', read4_writeBytes4 data pos _ hlen]
      exact Nat.mod_eq_of_lt hinstrlt
    simp only [decodeCall26]
    rw [if_pos (show pos + 4 ≤ data'.length by omega)]
    rw [hread, patched_low26 _ _ himlt]
    congr 1
    rw [sext26_eq k (by omega) (by omega)]
    have hkk : k * 4 = toI64 (wsub64 (s + a64) (secAddr + pos)) := by omega
    rw [hkk, add_assoc, ← Nat.cast_add]
    exact toI64_wsub64_addback (s + a64) (secAddr + pos)
  case isFalse h => simp at happly

/-- C2 counterexample: a CALL26 relocation applied by the engine with a
displacement of `0x102` (not a multiple of 4): decoding the patched word does
NOT yield `S + A` modulo 2^64, so the claim fails without an alignment
precondition. -/
theorem call26_decode_cex :
    applyOne relocFile 0 0 [] gFoo 0x400000 d8 (⟨0, 283, 2⟩ : Rela) =
      some [64, 0, 0, 4, 5, 6, 7, 8] ∧
    decodeCall26 [64, 0, 0, 4, 5, 6, 7, 8] 0 0x400000 ≠
      some ((0x400100 + 2) % 2 ^ 64) := by
  constructor
  · rfl
  · decide

/-- Witness for the C2 amended theorem at a concrete aligned, in-range
displacement. -/
theorem call26_decode_roundtrip_witness :
    decodeCall26 [80, 0, 0, 4, 5, 6, 7, 8] 0 0x400000 =
      some ((0x400100 + 0x40) % 2 ^ 64) :=
  call26_decode_roundtrip d8 [80, 0, 0, 4, 5, 6, 7, 8] 0 0x400100 0x40 0x400000
    (by rfl) (by decide) (by decide) (by decide)

/-! ## C10 — add_file requires a SHT_SYMTAB section -/

/-- C10: `add_file` insists on a symbol-table section: whenever the parsed
section table has no `SHT_SYMTAB` entry, `add_file` fails (the
`find(...).unwrap()` panic) instead of adding the file. -/
theorem add_file_requires_symtab (content : Bytes) (hdr : ElfHeader) (r1 : Bytes)
    (sections : List SectionHeader) (r2 : Bytes)
    (h1 : parse_elf_header content = some (hdr, r1))
    (h2 : parse_section_header_table content hdr = some (sections, r2))
    (h3 : ∀ s ∈ sections, s.sh_type ≠ SHT_SYMTAB) :
    add_file content = none := by
  have hfind : sections.find? (fun h => h.sh_type = SHT_SYMTAB) = none := by
    apply List.find?_eq_none.mpr
    intro x hx
    simpa using h3 x hx
  cases hg : sections[hdr.e_shstrndx]? with
  | none => simp [add_file, h1, h2, hg]
  | some sh =>
    cases hs : slice content sh.offset (sh.offset + sh.size) with
    | none => simp [add_file, h1, h2, hg, hs]
    | some data => simp [add_file, h1, h2, hg, hs, hfind]

/-- A well-formed 128-byte relocatable object with one NULL section and no
symbol table. -/
def noSymtabSecBytes : Bytes :=
  List.replicate 24 0 ++ [128, 0, 0, 0, 0, 0, 0, 0] ++ List.replicate 32 0

def noSymtabObj : Bytes :=
  [0x7f, 0x45, 0x4c, 0x46, 2, 1, 1, 0] ++ List.replicate 8 0 ++
  [1, 0, 183, 0, 1, 0, 0, 0] ++ List.replicate 16 0 ++
  [64, 0, 0, 0, 0, 0, 0, 0] ++ [0, 0, 0, 0] ++
  [64, 0, 0, 0, 0, 0, 64, 0, 1, 0, 0, 0] ++ noSymtabSecBytes

set_option maxRecDepth 100000 in
/-- Witness for C10 on the concrete symtab-less object. -/
theorem add_file_requires_symtab_witness : add_file noSymtabObj = none :=
  add_file_requires_symtab noSymtabObj
    ⟨2, 1, 1, 0, 0, 1, 183, 1, 0, 0, 64, 0, 64, 0, 0, 64, 1, 0⟩ noSymtabSecBytes
    [⟨0, 0, 0, 0, 128, 0, 0, 0, 0, 0⟩] [] (by decide) (by decide) (by decide)

/-! ## C6 — no class/data/machine validation -/

/-- A 193-byte object file whose e_ident claims 32-bit (`class = 1`),
big-endian (`data = 2`), OS/ABI 3, and whose machine is x86-64 (62): not an
ELF64/LE/AArch64 input, yet structurally complete (section table, symtab). -/
def x86Obj : Bytes :=
  [0x7f, 0x45, 0x4c, 0x46, 1, 2, 1, 3] ++ List.replicate 8 0 ++
  [1, 0, 62, 0, 1, 0, 0, 0] ++ List.replicate 16 0 ++
  [64, 0, 0, 0, 0, 0, 0, 0] ++ [0, 0, 0, 0] ++
  [64, 0, 0, 0, 0, 0, 64, 0, 2, 0, 0, 0] ++
  ([0, 0, 0, 0] ++ [3, 0, 0, 0] ++ List.replicate 16 0 ++ [192, 0, 0, 0, 0, 0, 0, 0] ++
    [1, 0, 0, 0, 0, 0, 0, 0] ++ List.replicate 24 0) ++
  ([0, 0, 0, 0] ++ [2, 0, 0, 0] ++ List.replicate 16 0 ++ [192, 0, 0, 0, 0, 0, 0, 0] ++
    List.replicate 24 0 ++ [24, 0, 0, 0, 0, 0, 0, 0]) ++
  [0]

set_option maxRecDepth 100000 in
/-- C6 counterexample: `add_file` ACCEPTS a 32-bit, big-endian, x86-64 input
instead of rejecting it with `UnsupportedTarget`; the accepted file's header
has class 1, data 2, machine 62. -/
theorem add_file_accepts_wrong_machine_cex :
    (add_file x86Obj).isSome ∧
    ((add_file x86Obj).map fun f =>
      (f.header.eclass, f.header.edata, f.header.e_machine)) = some (1, 2, 62) := by
  decide

theorem exists_list5 {α : Type _} (vs : List α) (h : vs.length = 5) :
    ∃ a1 a2 a3 a4 a5, vs = [a1, a2, a3, a4, a5] := by
  obtain ⟨a1, t1, rfl⟩ := List.exists_of_length_succ vs h
  have h1 : t1.length = 4 := by simpa using h
  obtain ⟨a2, t2, rfl⟩ := List.exists_of_length_succ t1 h1
  have h2 : t2.length = 3 := by simpa using h1
  obtain ⟨a3, t3, rfl⟩ := List.exists_of_length_succ t2 h2
  have h3 : t3.length = 2 := by simpa using h2
  obtain ⟨a4, t4, rfl⟩ := List.exists_of_length_succ t3 h3
  have h4 : t4.length = 1 := by simpa using h3
  obtain ⟨a5, t5, rfl⟩ := List.exists_of_length_succ t4 h4
  have h5 : t5.length = 0 := by simpa using h4
  rw [List.length_eq_zero] at h5
  subst h5
  exact ⟨a1, a2, a3, a4, a5, rfl⟩

theorem exists_list13 {α : Type _} (vs : List α) (h : vs.length = 13) :
    ∃ c1 c2 c3 c4 c5 c6 c7 c8 c9 c10 c11 c12 c13,
      vs = [c1, c2, c3, c4, c5, c6, c7, c8, c9, c10, c11, c12, c13] := by
  obtain ⟨c1, t1, rfl⟩ := List.exists_of_length_succ vs h
  have h1 : t1.length = 12 := by simpa using h
  obtain ⟨c2, t2, rfl⟩ := List.exists_of_length_succ t1 h1
  have h2 : t2.length = 11 := by simpa using h1
  obtain ⟨c3, t3, rfl⟩ := List.exists_of_length_succ t2 h2
  have h3 : t3.length = 10 := by simpa using h2
  obtain ⟨c4, t4, rfl⟩ := List.exists_of_length_succ t3 h3
  have h4 : t4.length = 9 := by simpa using h3
  obtain ⟨c5, t5, rfl⟩ := List.exists_of_length_succ t4 h4
  have h5 : t5.length = 8 := by simpa using h4
  obtain ⟨c6, t6, rfl⟩ := List.exists_of_length_succ t5 h5
  have h6 : t6.length = 7 := by simpa using h5
  obtain ⟨c7, t7, rfl⟩ := List.exists_of_length_succ t6 h6
  have h7 : t7.length = 6 := by simpa using h6
  obtain ⟨c8, t8, rfl⟩ := List.exists_of_length_succ t7 h7
  have h8 : t8.length = 5 := by simpa using h7
  obtain ⟨c9, t9, rfl⟩ := List.exists_of_length_succ t8 h8
  have h9 : t9.length = 4 := by simpa using h8
  obtain ⟨c10, t10, rfl⟩ := List.exists_of_length_succ t9 h9
  have h10 : t10.length = 3 := by simpa using h9
  obtain ⟨c11, t11, rfl⟩ := List.exists_of_length_succ t10 h10
  have h11 : t11.length = 2 := by simpa using h10
  obtain ⟨c12, t12, rfl⟩ := List.exists_of_length_succ t11 h11
  have h12 : t12.length = 1 := by simpa using h11
  obtain ⟨c13, t13, rfl⟩ := List.exists_of_length_succ t12 h12
  have h13 : t13.length = 0 := by simpa using h12
  rw [List.length_eq_zero] at h13
  subst h13
  exact ⟨c1, c2, c3, c4, c5, c6, c7, c8, c9, c10, c11, c12, c13, rfl⟩

theorem readFields_eq_some (ws : List Nat) : ∀ bs : Bytes, ws.sum ≤ bs.length →
    ∃ vs, readFields ws bs = some (vs, bs.drop ws.sum) ∧ vs.length = ws.length := by
  induction ws with
  | nil => intro bs _; exact ⟨[], rfl, rfl⟩
  | cons w ws ih =>
    intro bs h
    have hsum : (w :: ws).sum = w + ws.sum := by simp
    have hw : w ≤ bs.length := by rw [hsum] at h; omega
    obtain ⟨v, hv⟩ := readLE_eq_some w bs hw
    obtain ⟨vs, hvs, hlen⟩ := ih (bs.drop w) (by simp; rw [hsum] at h; omega)
    refine ⟨v :: vs, ?_, by simp [hlen]⟩
    simp only [readFields, hv, hvs, List.drop_drop, hsum]

/-- C6 (amended): `parse_elf_header` validates only the 4-byte magic and the
available length; the class, data-encoding and machine bytes are decoded but
never checked, so any such buffer — of any class, endianness, or machine —
is accepted (no `UnsupportedTarget` rejection exists). -/
theorem parse_elf_header_checks_only_magic (bs : Bytes)
    (hmagic : bs.take 4 = [0x7f, 0x45, 0x4c, 0x46]) (hlen : 64 ≤ bs.length) :
    (parse_elf_header bs).isSome := by
  match bs, hmagic with
  | b0 :: b1 :: b2 :: b3 :: r0, hmagic =>
    simp only [List.take, List.cons.injEq] at hmagic
    obtain ⟨h0, h1, h2, h3, -⟩ := hmagic
    subst h0; subst h1; subst h2; subst h3
    have hr0 : 60 ≤ r0.length := by simp at hlen; omega
    obtain ⟨vs5, hv5, hl5⟩ := readFields_eq_some [1, 1, 1, 1, 1] r0 (by simp; omega)
    obtain ⟨a1, a2, a3, a4, a5, rfl⟩ := exists_list5 vs5 (by simpa using hl5)
    have h7 : 7 ≤ (r0.drop 5).length := by simp; omega
    obtain ⟨vsB, hvB, hlB⟩ := readFields_eq_some [2, 2, 4, 8, 8, 8, 4, 2, 2, 2, 2, 2, 2]
      (r0.drop 12) (by simp; omega)
    obtain ⟨c1, c2, c3, c4, c5, c6, c7, c8, c9, c10, c11, c12, c13, rfl⟩ :=
      exists_list13 vsB (by simpa using hlB)
    simp [parse_elf_header, hv5, hvB, show 7 ≤ r0.length - 5 from by omega]

set_option maxRecDepth 100000 in
/-- Witness for the C6 amended theorem at the concrete x86-64 object. -/
theorem parse_elf_header_checks_only_magic_witness :
    (parse_elf_header x86Obj).isSome :=
  parse_elf_header_checks_only_magic x86Obj (by decide) (by decide)

/-! ## C8 — ELF-header serialisation round-trip -/

theorem readFields_length (ws : List Nat) : ∀ (bs : Bytes) (vs : List Nat) (rest : Bytes),
    readFields ws bs = some (vs, rest) → vs.length = ws.length := by
  induction ws with
  | nil => intro bs vs rest h; simp [readFields] at h; simp [h.1]
  | cons w ws ih =>
    intro bs vs rest h
    simp only [readFields] at h
    cases hv : readLE w bs with
    | none => rw [hv] at h; simp at h
    | some p =>
      obtain ⟨v, r1⟩ := p
      simp only [hv] at h
      cases hvs : readFields ws r1 with
      | none => simp [hvs] at h
      | some q =>
        obtain ⟨vs', r2⟩ := q
        simp only [hvs] at h
        simp at h
        rw [← h.1]
        simp [ih r1 vs' r2 hvs]

theorem readFields_bounds (ws : List Nat) : ∀ (bs : Bytes) (vs : List Nat) (rest : Bytes),
    (∀ b ∈ bs, b < 256) → readFields ws bs = some (vs, rest) →
    List.Forall₂ (fun v w => v < 256 ^ w) vs ws := by
  induction ws with
  | nil => intro bs vs rest _ h; simp [readFields] at h; simp [h.1]
  | cons w ws ih =>
    intro bs vs rest hb h
    simp only [readFields] at h
    cases hv : readLE w bs with
    | none => rw [hv] at h; simp at h
    | some p =>
      obtain ⟨v, r1⟩ := p
      simp only [hv] at h
      cases hvs : readFields ws r1 with
      | none => simp [hvs] at h
      | some q =>
        obtain ⟨vs', r2⟩ := q
        simp only [hvs] at h
        simp at h
        rw [← h.1]
        constructor
        · exact readLE_lt w bs v r1 hb hv
        · have hr1 : r1 = bs.drop w := readLE_rest w bs v r1 hv
          exact ih r1 vs' r2 (fun b hbm => hb b (List.drop_subset w bs (hr1 ▸ hbm))) hvs

theorem readFields_rest (ws : List Nat) : ∀ (bs : Bytes) (vs : List Nat) (rest : Bytes),
    readFields ws bs = some (vs, rest) → rest = bs.drop ws.sum := by
  induction ws with
  | nil => intro bs vs rest h; simp [readFields] at h; simp [h.2]
  | cons w ws ih =>
    intro bs vs rest h
    simp only [readFields] at h
    cases hv : readLE w bs with
    | none => rw [hv] at h; simp at h
    | some p =>
      obtain ⟨v, r1⟩ := p
      simp only [hv] at h
      cases hvs : readFields ws r1 with
      | none => simp [hvs] at h
      | some q =>
        obtain ⟨vs', r2⟩ := q
        simp only [hvs] at h
        simp at h
        rw [← h.2]
        rw [ih r1 vs' r2 hvs, readLE_rest w bs v r1 hv, List.drop_drop]
        simp [Nat.add_comm]

/-- Inversion of a successful header parse on a well-formed byte buffer: every
multi-byte field fits its documented width. -/
theorem parse_elf_header_field_bounds (bs : Bytes) (h : ElfHeader) (rest : Bytes)
    (hb : ∀ b ∈ bs, b < 256) (hp : parse_elf_header bs = some (h, rest)) :
    h.e_type < 256 ^ 2 ∧ h.e_machine < 256 ^ 2 ∧ h.e_version < 256 ^ 4 ∧
    h.e_entry < 256 ^ 8 ∧ h.e_phoff < 256 ^ 8 ∧ h.e_shoff < 256 ^ 8 ∧
    h.e_flags < 256 ^ 4 ∧ h.e_ehsize < 256 ^ 2 ∧ h.e_phentsize < 256 ^ 2 ∧
    h.e_phnum < 256 ^ 2 ∧ h.e_shentsize < 256 ^ 2 ∧ h.e_shnum < 256 ^ 2 ∧
    h.e_shstrndx < 256 ^ 2 := by
  rcases bs with _ | ⟨b0, _ | ⟨b1, _ | ⟨b2, _ | ⟨b3, r0⟩⟩⟩⟩
  case nil => simp [parse_elf_header] at hp
  case cons.nil => simp [parse_elf_header] at hp
  case cons.cons.nil => simp [parse_elf_header] at hp
  case cons.cons.cons.nil => simp [parse_elf_header] at hp
  simp only [parse_elf_header] at hp
  split at hp
  case isFalse => simp at hp
  case isTrue hm =>
    cases h5 : readFields [1, 1, 1, 1, 1] r0 with
    | none => rw [h5] at hp; simp at hp
    | some p5 =>
      rw [h5] at hp
      obtain ⟨vs5, r5⟩ := p5
      obtain ⟨a1, a2, a3, a4, a5, rfl⟩ :=
        exists_list5 vs5 (by simpa using readFields_length _ _ _ _ h5)
      simp only at hp
      split at hp
      case isFalse => simp at hp
      case isTrue h7 =>
        cases h13 : readFields [2, 2, 4, 8, 8, 8, 4, 2, 2, 2, 2, 2, 2] (r5.drop 7) with
        | none => rw [h13] at hp; simp at hp
        | some p13 =>
          rw [h13] at hp
          obtain ⟨vs13, r13⟩ := p13
          obtain ⟨c1, c2, c3, c4, c5, c6, c7, c8, c9, c10, c11, c12, c13, rfl⟩ :=
            exists_list13 vs13 (by simpa using readFields_length _ _ _ _ h13)
          simp only at hp
          have hr0 : ∀ b ∈ r0, b < 256 := fun b hbm => hb b (by simp [hbm])
          have hr5 : r5 = r0.drop 5 := by
            simpa using readFields_rest _ _ _ _ h5
          have hr5b : ∀ b ∈ r5.drop 7, b < 256 := by
            intro b hbm
            rw [hr5] at hbm
            exact hr0 b (List.drop_subset _ _ (List.drop_subset _ _ hbm))
          have hbnd := readFields_bounds _ _ _ _ hr5b h13
          simp only [List.forall₂_cons] at hbnd
          injection Option.some.inj hp with hh hr
          rw [← hh]
          exact ⟨hbnd.1, hbnd.2.1, hbnd.2.2.1, hbnd.2.2.2.1, hbnd.2.2.2.2.1,
            hbnd.2.2.2.2.2.1, hbnd.2.2.2.2.2.2.1, hbnd.2.2.2.2.2.2.2.1,
            hbnd.2.2.2.2.2.2.2.2.1, hbnd.2.2.2.2.2.2.2.2.2.1,
            hbnd.2.2.2.2.2.2.2.2.2.2.1, hbnd.2.2.2.2.2.2.2.2.2.2.2.1,
            hbnd.2.2.2.2.2.2.2.2.2.2.2.2.1⟩

/-- C8 (amended): serialising a parsed header the way the emitter writes it —
a literal canonical 16-byte e_ident followed by the little-endian fields —
and re-parsing restores every field from `e_type` through `e_shstrndx`, but
the five identification fields come back as the canonical `2, 1, 1, 0, 0`;
the round-trip therefore restores the original header exactly when its
identification fields already were canonical. -/
theorem header_roundtrip (bs : Bytes) (h : ElfHeader) (rest : Bytes)
    (hb : ∀ b ∈ bs, b < 256)
    (hp : parse_elf_header bs = some (h, rest)) :
    parse_elf_header (serializeElfHeader h) =
      some ({ h with eclass := 2, edata := 1, version := 1,
                     os_abi := 0, abi_version := 0 }, []) := by
  obtain ⟨ht, hmach, hver, hent, hphoff, hshoff, hflags, hehsize, hphent, hphnum,
    hshent, hshnum, hshstr⟩ := parse_elf_header_field_bounds bs h rest hb hp
  simp only [serializeElfHeader, List.cons_append, List.nil_append]
  simp [parse_elf_header, readFields, readLE, readLE_toLeBytes, toLeBytes_length,
    ht, hmach, hver, hent, hphoff, hshoff, hflags, hehsize, hphent, hphnum,
    hshent, hshnum, hshstr]
  repeat' constructor
  all_goals omega

/-- A 64-byte header whose OS/ABI byte is 3 (all other fields zero). -/
def osabi3Obj : Bytes := [0x7f, 0x45, 0x4c, 0x46, 2, 1, 1, 3] ++ List.replicate 56 0

/-- C8 counterexample: parsing a header with OS/ABI = 3, re-serialising it
with the emitter's writer and re-parsing yields OS/ABI = 0 — the original
header is NOT recovered in every field. -/
theorem header_roundtrip_cex :
    ((parse_elf_header osabi3Obj).map fun p => p.1.os_abi) = some 3 ∧
    ((parse_elf_header osabi3Obj).bind fun p =>
      (parse_elf_header (serializeElfHeader p.1)).map fun q => q.1.os_abi) = some 0 := by
  decide

/-- Witness for the C8 amended theorem on the OS/ABI-3 header. -/
theorem header_roundtrip_witness :
    parse_elf_header (serializeElfHeader
        ⟨2, 1, 1, 3, 0, 0, 0, 0, 0, 0, 0, 0, 0, 0, 0, 0, 0, 0⟩) =
      some (⟨2, 1, 1, 0, 0, 0, 0, 0, 0, 0, 0, 0, 0, 0, 0, 0, 0, 0⟩, []) :=
  header_roundtrip osabi3Obj ⟨2, 1, 1, 3, 0, 0, 0, 0, 0, 0, 0, 0, 0, 0, 0, 0, 0, 0⟩ []
    (by decide) (by decide)

/-! ## C4 — layout address assignment -/

/-- ANDing with the 64-bit complement of `2^k - 1` clears the low `k` bits. -/
theorem land_high_mask (x k : Nat) (hx : x < 2 ^ 64) (hk : k ≤ 64) :
    x &&& (2 ^ 64 - 2 ^ k) = x / 2 ^ k * 2 ^ k := by
  have hmask : 2 ^ 64 - 2 ^ k = (2 ^ (64 - k) - 1) <<< k := by
    rw [Nat.shiftLeft_eq, Nat.sub_mul, ← Nat.pow_add, Nat.sub_add_cancel hk, one_mul]
  have hrhs : x / 2 ^ k * 2 ^ k = (x >>> k) <<< k := by
    rw [Nat.shiftLeft_eq, Nat.shiftRight_eq_div_pow]
  rw [hmask, hrhs]
  apply Nat.eq_of_testBit_eq
  intro i
  rw [Nat.testBit_and, Nat.testBit_shiftLeft, Nat.testBit_shiftLeft,
    Nat.testBit_shiftRight, Nat.testBit_two_pow_sub_one]
  by_cases hik : k ≤ i
  · by_cases hi64 : i < 64
    · have hki : k + (i - k) = i := by omega
      rw [hki]
      simp [hik, show i - k < 64 - k by omega]
    · have hxf : x.testBit i = false :=
        Nat.testBit_lt_two_pow
          (lt_of_lt_of_le hx (Nat.pow_le_pow_right (by norm_num) (by omega)))
      have hki : k + (i - k) = i := by omega
      rw [hki, hxf]
      simp
  · simp [hik, show ¬ (i ≥ k) by omega]

theorem alignCursor_le (cur a : Nat) (ha : 0 < a) :
    alignCursor cur a ≤ cur + a - 1 := by
  unfold alignCursor
  rw [if_pos ha]
  exact Nat.and_le_left

theorem alignCursor_pow2 (cur k : Nat) (hk : k ≤ 64) (h : cur + 2 ^ k ≤ 2 ^ 64) :
    cur ≤ alignCursor cur (2 ^ k) ∧ 2 ^ k ∣ alignCursor cur (2 ^ k) := by
  have hpos : 0 < 2 ^ k := Nat.pos_pow_of_pos k (by norm_num)
  unfold alignCursor
  rw [if_pos hpos]
  rw [land_high_mask (cur + 2 ^ k - 1) k (by omega) hk]
  constructor
  · have hlt := Nat.lt_div_mul_add (a := cur + 2 ^ k - 1) hpos
    generalize (cur + 2 ^ k - 1) / 2 ^ k * 2 ^ k = D at *
    omega
  · exact dvd_mul_left _ _

/-- The core invariant of phase 2: provided every alignment is zero or a
power of two and the cursor cannot overflow, each assigned address is at
least the incoming cursor, consecutive addresses satisfy
`addr + size ≤ next.addr`, aligned sections get multiples of their
alignment, and names and sizes are unchanged. -/
theorem assignAddrs_spec : ∀ (l : List OutputSection) (cur : Nat),
    (∀ o ∈ l, o.header.addralign = 0 ∨ ∃ k, k ≤ 64 ∧ o.header.addralign = 2 ^ k) →
    cur + ((l.map fun o => o.header.size + o.header.addralign).sum) ≤ 2 ^ 64 →
    (∀ o ∈ (assignAddrs cur l).2.head?, cur ≤ o.header.addr) ∧
    List.Chain' (fun a b => a.header.addr + a.header.size ≤ b.header.addr)
      (assignAddrs cur l).2 ∧
    (∀ o ∈ (assignAddrs cur l).2, o.header.addralign ≠ 0 →
      o.header.addralign ∣ o.header.addr) ∧
    (assignAddrs cur l).2.map (fun o => o.name) = l.map (fun o => o.name) := by
  intro l
  induction l with
  | nil => intro cur _ _; simp [assignAddrs]
  | cons o rest ih =>
    intro cur hpow hbound
    have hsum : ((o :: rest).map fun o => o.header.size + o.header.addralign).sum =
        o.header.size + o.header.addralign +
        ((rest.map fun o => o.header.size + o.header.addralign).sum) := by simp
    rw [hsum] at hbound
    have halign : cur ≤ alignCursor cur o.header.addralign ∧
        alignCursor cur o.header.addralign + o.header.size +
          ((rest.map fun o => o.header.size + o.header.addralign).sum) ≤ 2 ^ 64 ∧
        (o.header.addralign ≠ 0 →
          o.header.addralign ∣ alignCursor cur o.header.addralign) := by
      rcases hpow o (List.mem_cons_self o rest) with hz | ⟨k, hk, h2k⟩
      · rw [hz]
        unfold alignCursor
        simp only [if_neg (by omega : ¬ 0 < 0)]
        exact ⟨le_refl _, by omega, fun hne => absurd rfl hne⟩
      · rw [h2k]
        have hp2 := alignCursor_pow2 cur k hk (by omega)
        have hle := alignCursor_le cur (2 ^ k) (Nat.pos_pow_of_pos k (by norm_num))
        have hpos : 0 < 2 ^ k := Nat.pos_pow_of_pos k (by norm_num)
        exact ⟨hp2.1, by omega, fun _ => hp2.2⟩
    obtain ⟨hcur_le, hbound', hdvd⟩ := halign
    set a := alignCursor cur o.header.addralign with ha
    have hrest := ih (a + o.header.size)
      (fun x hx => hpow x (List.mem_cons_of_mem _ hx)) (by omega)
    obtain ⟨hhead, hchain, hdvds, hnames⟩ := hrest
    simp only [assignAddrs]
    refine ⟨?_, ?_, ?_, ?_⟩
    · intro x hx
      simp at hx
      rw [← hx]
      exact hcur_le
    · rw [List.chain'_cons']
      constructor
      · intro y hy
        exact hhead y hy
      · exact hchain
    · intro x hx hxa
      rcases List.mem_cons.mp hx with rfl | hx'
      · exact hdvd hxa
      · exact hdvds x hx' hxa
    · simp [hnames]

theorem sortByPrio_sorted (outs : List OutputSection) :
    (sortByPrio outs).Pairwise fun a b => sectionPrio a.name ≤ sectionPrio b.name := by
  haveI : IsTotal OutputSection (fun a b => sectionPrio a.name ≤ sectionPrio b.name) :=
    ⟨fun a b => Nat.le_total _ _⟩
  haveI : IsTrans OutputSection (fun a b => sectionPrio a.name ≤ sectionPrio b.name) :=
    ⟨fun a b c => Nat.le_trans⟩
  exact List.sorted_insertionSort _ outs

theorem sortByPrio_perm (outs : List OutputSection) : (sortByPrio outs).Perm outs :=
  List.perm_insertionSort _ outs

theorem pairwise_prio_of_names_eq (l1 l2 : List OutputSection)
    (h : l1.map (fun o => o.name) = l2.map (fun o => o.name))
    (hp : l2.Pairwise fun a b => sectionPrio a.name ≤ sectionPrio b.name) :
    l1.Pairwise fun a b => sectionPrio a.name ≤ sectionPrio b.name := by
  have h2 : (l2.map fun o => o.name).Pairwise
      (fun x y : Name => sectionPrio x ≤ sectionPrio y) :=
    hp.map (fun o : OutputSection => o.name) (fun a b hab => hab)
  rw [← h] at h2
  exact List.Pairwise.of_map (fun o : OutputSection => o.name) (fun a b hab => hab) h2

/-- C4 (amended): provided every merged section's `addralign` is zero or a
power of two and the virtual-address cursor cannot overflow u64, the layout
produces the priority-sorted section order with `addr + size ≤ next.addr`
consecutively (so addresses are non-decreasing, and strictly increasing past
any section of non-zero size), every address whose `addralign` is non-zero is
a multiple of it, and the first address is at least `0x400000 + 176`.
Strict increase fails between a zero-sized section and its successor, and
the mask-based rounding only aligns power-of-two `addralign` values. -/
theorem layout_addrs_spec (files : List InputFile) (endCur : Nat)
    (secs outs0 : List OutputSection)
    (hp1 : phase1 files = some outs0)
    (hlay : layoutPhase12 files = some (endCur, secs))
    (hpow : ∀ o ∈ outs0, o.header.addralign = 0 ∨ ∃ k, k ≤ 64 ∧ o.header.addralign = 2 ^ k)
    (hbound : 0x4000B0 +
      ((outs0.map fun o => o.header.size + o.header.addralign).sum) ≤ 2 ^ 64) :
    secs.Pairwise (fun a b => sectionPrio a.name ≤ sectionPrio b.name) ∧
    (∀ o ∈ secs.head?, 0x4000B0 ≤ o.header.addr) ∧
    List.Chain' (fun a b => a.header.addr + a.header.size ≤ b.header.addr) secs ∧
    (∀ o ∈ secs, o.header.addralign ≠ 0 → o.header.addralign ∣ o.header.addr) := by
  have hsecs : secs = (assignAddrs (0x400000 + headersTotalSize) (sortByPrio outs0)).2 := by
    simp [layoutPhase12, hp1] at hlay
    exact (congrArg Prod.snd hlay).symm
  have hbound' : 0x400000 + headersTotalSize +
      (((sortByPrio outs0).map fun o => o.header.size + o.header.addralign).sum) ≤ 2 ^ 64 := by
    have hperm := ((sortByPrio_perm outs0).map
      fun o => o.header.size + o.header.addralign).sum_eq
    simp only [headersTotalSize]
    omega
  have hpow' : ∀ o ∈ sortByPrio outs0,
      o.header.addralign = 0 ∨ ∃ k, k ≤ 64 ∧ o.header.addralign = 2 ^ k := by
    intro o ho
    exact hpow o ((sortByPrio_perm outs0).mem_iff.mp ho)
  obtain ⟨hhead, hchain, hdvd, hnames⟩ :=
    assignAddrs_spec (sortByPrio outs0) (0x400000 + headersTotalSize) hpow' hbound'
  refine ⟨?_, ?_, ?_, ?_⟩
  · rw [hsecs]
    exact pairwise_prio_of_names_eq _ _ hnames (sortByPrio_sorted outs0)
  · rw [hsecs]
    intro o ho
    exact hhead o ho
  · rw [hsecs]; exact hchain
  · rw [hsecs]; exact hdvd

/-- Concrete layout counterexample input: a zero-sized `.text` and a
4-byte `.rodata` with `addralign = 7`. -/
def c4SecText : SectionHeader := ⟨0, 1, 2, 0, 0, 0, 0, 0, 0, 0⟩

def c4SecRodata : SectionHeader := ⟨6, 1, 2, 0, 0, 4, 0, 0, 7, 0⟩

def c4Shstr : Bytes := [46, 116, 101, 120, 116, 0, 46, 114, 111, 100, 97, 116, 97, 0]

def c4Hdr : ElfHeader := ⟨2, 1, 1, 0, 0, 1, 183, 1, 0, 0, 0, 0, 64, 0, 0, 64, 2, 0⟩

def c4File : InputFile := ⟨[], c4Hdr, [c4SecText, c4SecRodata], [], c4Shstr, []⟩

def c4OutText : OutputSection := ⟨textName, ⟨0, 1, 2, 0x4000B0, 0, 0, 0, 0, 0, 0⟩, []⟩

def c4OutRodata : OutputSection :=
  ⟨rodataName, ⟨6, 1, 2, 0x4000B0, 0, 4, 0, 0, 7, 0⟩, [0, 0, 0, 0]⟩

/-- C4 counterexample: after layout of the input above, `.text` and `.rodata`
both receive address 0x4000B0 — the addresses are NOT strictly increasing —
and `.rodata`'s address is not a multiple of its `addralign` 7, so both the
strict-increase and the alignment conjuncts of the claim fail. -/
theorem layout_claim_cex :
    layoutPhase12 [c4File] = some (0x4000B4, [c4OutText, c4OutRodata]) ∧
    ¬ List.Chain' (fun a b => a.header.addr < b.header.addr) [c4OutText, c4OutRodata] ∧
    ¬ (∀ o ∈ [c4OutText, c4OutRodata],
        o.header.addralign ≠ 0 → o.header.addralign ∣ o.header.addr) := by
  refine ⟨by decide, ?_, ?_⟩
  · intro hch
    rw [List.chain'_cons] at hch
    have hlt : (0x4000B0 : Nat) < 0x4000B0 := hch.1
    omega
  · intro hdvd
    have h7 : (7 : Nat) ∣ 0x4000B0 :=
      hdvd c4OutRodata (by simp) (by decide)
    omega

/-- Concrete witness input: `.text` (size 4, align 4) and `.data`
(size 8, align 8). -/
def c4WSecText : SectionHeader := ⟨0, 1, 2, 0, 0, 4, 0, 0, 4, 0⟩

def c4WSecData : SectionHeader := ⟨6, 1, 2, 0, 0, 8, 0, 0, 8, 0⟩

def c4WShstr : Bytes := [46, 116, 101, 120, 116, 0, 46, 100, 97, 116, 97, 0]

def c4WFile : InputFile := ⟨[], c4Hdr, [c4WSecText, c4WSecData], [], c4WShstr, []⟩

def c4WOut : List OutputSection :=
  [⟨textName, ⟨0, 1, 2, 0x4000B0, 0, 4, 0, 0, 4, 0⟩, [0, 0, 0, 0]⟩,
   ⟨dataName, ⟨6, 1, 2, 0x4000B8, 0, 8, 0, 0, 8, 0⟩, [0, 0, 0, 0, 0, 0, 0, 0]⟩]

/-- Witness for the C4 amended theorem on the power-of-two-aligned input. -/
theorem layout_addrs_spec_witness :
    c4WOut.Pairwise (fun a b => sectionPrio a.name ≤ sectionPrio b.name) ∧
    (∀ o ∈ c4WOut.head?, 0x4000B0 ≤ o.header.addr) ∧
    List.Chain' (fun a b => a.header.addr + a.header.size ≤ b.header.addr) c4WOut ∧
    (∀ o ∈ c4WOut, o.header.addralign ≠ 0 → o.header.addralign ∣ o.header.addr) :=
  layout_addrs_spec [c4WFile] 0x4000C0 c4WOut
    [⟨textName, ⟨0, 1, 2, 0, 0, 4, 0, 0, 4, 0⟩, []⟩,
     ⟨dataName, ⟨6, 1, 2, 0, 0, 8, 0, 0, 8, 0⟩, []⟩]
    (by decide) (by decide)
    (by
      intro o ho
      simp only [List.mem_cons, List.not_mem_nil, or_false] at ho
      rcases ho with rfl | rfl
      · exact Or.inr ⟨2, by norm_num, rfl⟩
      · exact Or.inr ⟨3, by norm_num, rfl⟩)
    (by decide)

/-! ## C3 — first-writer-wins symbol resolution -/

theorem defValue_name (outs : List OutputSection) (iso : List ((Nat × Nat) × Nat))
    (fi : Nat) (f : InputFile) (sym : Symbol) (m : Name) (w : Nat)
    (h : defValue outs iso (fi, f, sym) = some (m, w)) :
    m = (get_symbol_name f.strtab_data sym).getD [] := by
  simp only [defValue] at h
  split at h
  · split at h
    · simp at h
    · split at h
      · split at h
        · simp at h
        · split at h
          · simp at h
          · split at h
            · simp at h
            · exact (Prod.mk.injEq _ _ _ _ ▸ Option.some.inj h).1.symm
      · simp at h
  · simp at h

theorem resolveStep_spec (outs : List OutputSection) (iso : List ((Nat × Nat) × Nat))
    (g g1 : List (Name × Nat)) (e : Nat × InputFile × Symbol)
    (h : resolveStep outs iso g e = some g1) :
    (∃ m w, defValue outs iso e = some (m, w) ∧ lookupAssoc g m = none ∧
      g1 = g ++ [(m, w)]) ∨
    ((defValue outs iso e = none ∨
      ∃ m w, defValue outs iso e = some (m, w) ∧ (lookupAssoc g m).isSome) ∧ g1 = g) := by
  obtain ⟨fi, f, sym⟩ := e
  by_cases hbind : sym.get_bind = 1
  · by_cases hempty : (get_symbol_name f.strtab_data sym).getD [] = []
    · refine Or.inr ⟨Or.inl ?_, ?_⟩
      · simp [defValue, hbind, hempty]
      · have hstep : resolveStep outs iso g (fi, f, sym) = some g := by
          simp [resolveStep, hbind, hempty]
        rw [hstep] at h
        exact (Option.some.inj h).symm
    · by_cases hlook : (lookupAssoc g ((get_symbol_name f.strtab_data sym).getD [])).isSome
      · have hstep : resolveStep outs iso g (fi, f, sym) = some g := by
          simp [resolveStep, hbind, hempty, hlook]
        rw [hstep] at h
        refine Or.inr ⟨?_, (Option.some.inj h).symm⟩
        cases hdv : defValue outs iso (fi, f, sym) with
        | none => exact Or.inl rfl
        | some p =>
          refine Or.inr ⟨p.1, p.2, by simp [hdv], ?_⟩
          rw [defValue_name outs iso fi f sym p.1 p.2 (by simp [hdv])]
          exact hlook
      · by_cases hsh : 0 < sym.shndx ∧ sym.shndx < f.sections.length
        · cases hsec : f.sections[sym.shndx]? with
          | none =>
            refine Or.inr ⟨Or.inl ?_, ?_⟩
            · simp [defValue, hbind, hempty, hsh, hsec]
            · have hstep : resolveStep outs iso g (fi, f, sym) = some g := by
                simp [resolveStep, hbind, hempty, hlook, hsh, hsec]
              rw [hstep] at h
              exact (Option.some.inj h).symm
          | some sec =>
            cases hsn : get_section_name f.shstrtab_data sec with
            | none =>
              exfalso
              have hstep : resolveStep outs iso g (fi, f, sym) = none := by
                simp [resolveStep, hbind, hempty, hlook, hsh, hsec, hsn]
              rw [hstep] at h
              simp at h
            | some sname =>
              cases hout : lookupOut outs sname with
              | none =>
                refine Or.inr ⟨Or.inl ?_, ?_⟩
                · simp [defValue, hbind, hempty, hsh, hsec, hsn, hout]
                · have hstep : resolveStep outs iso g (fi, f, sym) = some g := by
                    simp [resolveStep, hbind, hempty, hlook, hsh, hsec, hsn, hout]
                  rw [hstep] at h
                  exact (Option.some.inj h).symm
              | some osec =>
                refine Or.inl ⟨(get_symbol_name f.strtab_data sym).getD [],
                  osec.header.addr + (lookupAssoc iso (fi, sym.shndx)).getD 0 + sym.value,
                  ?_, ?_, ?_⟩
                · simp [defValue, hbind, hempty, hsh, hsec, hsn, hout]
                · simpa using hlook
                · have hstep : resolveStep outs iso g (fi, f, sym) =
                      some (g ++ [((get_symbol_name f.strtab_data sym).getD [],
                        osec.header.addr + (lookupAssoc iso (fi, sym.shndx)).getD 0 +
                          sym.value)]) := by
                    simp [resolveStep, hbind, hempty, hlook, hsh, hsec, hsn, hout]
                  rw [hstep] at h
                  exact (Option.some.inj h).symm
        · refine Or.inr ⟨Or.inl ?_, ?_⟩
          · simp [defValue, hbind, hempty, hsh]
          · have hstep : resolveStep outs iso g (fi, f, sym) = some g := by
              simp [resolveStep, hbind, hempty, hlook, hsh]
            rw [hstep] at h
            exact (Option.some.inj h).symm
  · refine Or.inr ⟨Or.inl ?_, ?_⟩
    · simp [defValue, hbind]
    · have hstep : resolveStep outs iso g (fi, f, sym) = some g := by
        simp [resolveStep, hbind]
      rw [hstep] at h
      exact (Option.some.inj h).symm

theorem resolveStep_lookup (outs : List OutputSection) (iso : List ((Nat × Nat) × Nat))
    (g g1 : List (Name × Nat)) (e : Nat × InputFile × Symbol) (n : Name)
    (h : resolveStep outs iso g e = some g1) :
    lookupAssoc g1 n = ((lookupAssoc g n).orElse fun _ =>
      lookupAssoc ([e].filterMap (defValue outs iso)) n) := by
  rcases resolveStep_spec outs iso g g1 e h with ⟨m, w, hdv, hlk, heq⟩ | ⟨hdv, heq⟩
  · rw [heq, lookupAssoc_append]
    simp [List.filterMap_cons, hdv]
  · rw [heq]
    rcases hdv with hnone | ⟨m, w, hdv, hsome⟩
    · simp only [List.filterMap_cons, hnone, List.filterMap_nil]
      cases lookupAssoc g n <;> simp [Option.orElse, lookupAssoc]
    · simp only [List.filterMap_cons, hdv, List.filterMap_nil]
      by_cases hmn : m = n
      · subst hmn
        cases hlg : lookupAssoc g m with
        | none => rw [hlg] at hsome; simp at hsome
        | some v => simp [Option.orElse]
      · cases hlg : lookupAssoc g n with
        | none => simp [Option.orElse, lookupAssoc, hmn]
        | some v => simp [Option.orElse]

theorem resolveList_lookup (outs : List OutputSection) (iso : List ((Nat × Nat) × Nat)) :
    ∀ (l : List (Nat × InputFile × Symbol)) (g g1 : List (Name × Nat)),
    resolveList outs iso l g = some g1 → ∀ n : Name,
    lookupAssoc g1 n = ((lookupAssoc g n).orElse fun _ =>
      lookupAssoc (l.filterMap (defValue outs iso)) n) := by
  intro l
  induction l with
  | nil =>
    intro g g1 h n
    simp only [resolveList, Option.some.injEq] at h
    rw [← h]
    simp only [List.filterMap_nil]
    cases lookupAssoc g n <;> simp [Option.orElse, lookupAssoc]
  | cons e rest ih =>
    intro g g1 h n
    simp only [resolveList] at h
    cases hstep : resolveStep outs iso g e with
    | none => rw [hstep] at h; simp at h
    | some g2 =>
      rw [hstep] at h
      have h1 := ih g2 g1 h n
      have h2 := resolveStep_lookup outs iso g g2 e n hstep
      rw [h1, h2]
      cases hdv : defValue outs iso e with
      | none =>
        simp only [List.filterMap_cons, hdv, List.filterMap_nil]
        cases lookupAssoc g n <;> simp [Option.orElse, lookupAssoc]
      | some p =>
        simp only [List.filterMap_cons, hdv, List.filterMap_nil]
        by_cases hpn : p.1 = n
        · cases hl : lookupAssoc g n <;>
            simp [Option.orElse, lookupAssoc, hpn, hl]
        · cases hl : lookupAssoc g n <;>
            simp [Option.orElse, lookupAssoc, hpn, hl]

theorem resolveList_nodup (outs : List OutputSection) (iso : List ((Nat × Nat) × Nat)) :
    ∀ (l : List (Nat × InputFile × Symbol)) (g g1 : List (Name × Nat)),
    resolveList outs iso l g = some g1 →
    (g.map Prod.fst).Nodup → (g1.map Prod.fst).Nodup := by
  intro l
  induction l with
  | nil =>
    intro g g1 h hnd
    simp only [resolveList, Option.some.injEq] at h
    rw [← h]
    exact hnd
  | cons e rest ih =>
    intro g g1 h hnd
    simp only [resolveList] at h
    cases hstep : resolveStep outs iso g e with
    | none => rw [hstep] at h; simp at h
    | some g2 =>
      rw [hstep] at h
      refine ih g2 g1 h ?_
      rcases resolveStep_spec outs iso g g2 e hstep with ⟨m, w, _, hlk, rfl⟩ | ⟨_, rfl⟩
      · rw [List.map_append]
        apply List.Nodup.append hnd (by simp)
        intro a ha hb
        simp at hb
        rw [lookupAssoc_eq_none] at hlk
        exact hlk (hb ▸ ha)
      · exact hnd

/-- C3: after symbol resolution, for every name that has at least one
qualifying GLOBAL definition (non-empty name, section index valid, section
name matching an output section), the global-symbol map holds an entry under
that name — and its keys are duplicate-free, so the entry is unique — whose
value is
`output.addr + input_section_offset + value` computed from the FIRST such
definition in input order; later definitions leave the entry unchanged. -/
theorem resolve_symbols_first_writer (files : List InputFile)
    (outs : List OutputSection) (iso : List ((Nat × Nat) × Nat))
    (g1 : List (Name × Nat)) (n : Name) (v : Nat)
    (hres : resolve_symbols outs iso files = some g1)
    (hfirst : firstGlobalDef outs iso files n = some v) :
    lookupAssoc g1 n = some v ∧ (g1.map Prod.fst).Nodup := by
  have hl := resolveList_lookup outs iso (flattenSyms files) [] g1 hres n
  rw [firstGlobalDef] at hfirst
  have hlk : lookupAssoc g1 n = some v := by
    rw [hl]
    simp only [lookupAssoc, Option.orElse]
    exact hfirst
  exact ⟨hlk, resolveList_nodup outs iso (flattenSyms files) [] g1 hres (by simp)⟩

/-- Concrete resolver fixtures: two files both defining the GLOBAL symbol
`a` in their `.text` sections, with different values. -/
def c3NullSec : SectionHeader := ⟨0, 0, 0, 0, 0, 0, 0, 0, 0, 0⟩

def c3TextSec : SectionHeader := ⟨0, 1, 6, 0, 0, 4, 0, 0, 0, 0⟩

def c3Shstr : Bytes := [46, 116, 101, 120, 116, 0]

def c3Strtab : Bytes := [97, 0]

def c3Sym1 : Symbol := ⟨0, 0x10, 0, 1, 0, 0⟩

def c3Sym2 : Symbol := ⟨0, 0x10, 0, 1, 8, 0⟩

def c3F1 : InputFile := ⟨[], c4Hdr, [c3NullSec, c3TextSec], [c3Sym1], c3Shstr, c3Strtab⟩

def c3F2 : InputFile := ⟨[], c4Hdr, [c3NullSec, c3TextSec], [c3Sym2], c3Shstr, c3Strtab⟩

def c3Outs : List OutputSection :=
  [⟨textName, ⟨0, 1, 6, 0x400100, 0, 8, 0, 0, 0, 0⟩, List.replicate 8 0⟩]

def c3Iso : List ((Nat × Nat) × Nat) := [((0, 1), 0), ((1, 1), 4)]

/-- Witness for C3: with two definitions of `a`, the map keeps the first
(file 0's, at `0x400100 + 0 + 0`), ignoring file 1's later definition. -/
theorem resolve_symbols_first_writer_witness :
    lookupAssoc [([97], 0x400100)] [97] = some 0x400100 ∧
    (([([97], 0x400100)] : List (Name × Nat)).map Prod.fst).Nodup :=
  resolve_symbols_first_writer [c3F1, c3F2] c3Outs c3Iso [([97], 0x400100)] [97] 0x400100
    (by decide) (by decide)

/-! ## C9 — data-copy offsets are padding-free prefix sums -/

/-- Whether an input section contributes in the copy phase (SHT_PROGBITS and
name matching an output section), and under which name. -/
def copyQual (outs : List OutputSection) (f : InputFile) (sec : SectionHeader) :
    Option Name :=
  if sec.sh_type = SHT_PROGBITS then
    let n := (get_section_name f.shstrtab_data sec).getD []
    if (lookupOut outs n).isSome then some n else none
  else none

/-- Sum of the sizes of the qualifying sections of a list, per name. -/
def sumQual (outs : List OutputSection) :
    List (Nat × InputFile × Nat × SectionHeader) → Name → Nat
  | [], _ => 0
  | e :: rest, n =>
    (if copyQual outs e.2.1 e.2.2.2 = some n then e.2.2.2.size else 0) +
      sumQual outs rest n

theorem lookupOut_map_isSome (outs : List OutputSection) (F : OutputSection → OutputSection)
    (hF : ∀ o, (F o).name = o.name) (m : Name) :
    (lookupOut (outs.map F) m).isSome = (lookupOut outs m).isSome := by
  induction outs with
  | nil => rfl
  | cons o rest ih =>
    simp only [List.map_cons, lookupOut, hF o]
    by_cases h : o.name = m
    · simp [h]
    · simp [h, ih]

theorem lookupOut_updateOutData_isSome (outs : List OutputSection) (n m : Name)
    (d : Bytes) :
    (lookupOut (updateOutData outs n d) m).isSome = (lookupOut outs m).isSome := by
  unfold updateOutData
  apply lookupOut_map_isSome
  intro o
  by_cases h : o.name = n <;> simp [h]

theorem copyQual_updateOutData (outs : List OutputSection) (n : Name) (d : Bytes)
    (f : InputFile) (sec : SectionHeader) :
    copyQual (updateOutData outs n d) f sec = copyQual outs f sec := by
  simp only [copyQual, lookupOut_updateOutData_isSome]

theorem copyStep_spec (st : CopySt) (fi : Nat) (f : InputFile) (si : Nat)
    (sec : SectionHeader) (st' : CopySt)
    (h : copyStep st (fi, f, si, sec) = some st') :
    (∃ n, copyQual st.outs f sec = some n ∧
      st'.offsets = setAssoc st.offsets n ((lookupAssoc st.offsets n).getD 0 + sec.size) ∧
      st'.iso = st.iso ++ [((fi, si), (lookupAssoc st.offsets n).getD 0)] ∧
      ∃ d, st'.outs = updateOutData st.outs n d) ∨
    (copyQual st.outs f sec = none ∧ st' = st) := by
  by_cases hty : sec.sh_type = SHT_PROGBITS
  · cases hout : lookupOut st.outs ((get_section_name f.shstrtab_data sec).getD []) with
    | none =>
      refine Or.inr ⟨?_, ?_⟩
      · simp [copyQual, hty, hout]
      · have hstep : copyStep st (fi, f, si, sec) = some st := by
          simp [copyStep, hty, hout]
        rw [hstep] at h
        exact (Option.some.inj h).symm
    | some o =>
      cases hsl : slice f.content sec.offset (sec.offset + sec.size) with
      | none =>
        exfalso
        have hstep : copyStep st (fi, f, si, sec) = none := by
          simp [copyStep, hty, hout, hsl]
        rw [hstep] at h
        simp at h
      | some src =>
        by_cases hfit : (lookupAssoc st.offsets
            ((get_section_name f.shstrtab_data sec).getD [])).getD 0 + sec.size ≤
            o.data.length
        · refine Or.inl ⟨(get_section_name f.shstrtab_data sec).getD [], ?_, ?_, ?_, ?_⟩
          · simp [copyQual, hty, hout]
          · have hstep : copyStep st (fi, f, si, sec) = some
                ⟨setAssoc st.offsets ((get_section_name f.shstrtab_data sec).getD [])
                  ((lookupAssoc st.offsets
                    ((get_section_name f.shstrtab_data sec).getD [])).getD 0 + sec.size),
                 st.iso ++ [((fi, si), (lookupAssoc st.offsets
                    ((get_section_name f.shstrtab_data sec).getD [])).getD 0)],
                 updateOutData st.outs ((get_section_name f.shstrtab_data sec).getD [])
                   (writeBytes o.data ((lookupAssoc st.offsets
                     ((get_section_name f.shstrtab_data sec).getD [])).getD 0) src)⟩ := by
              simp [copyStep, hty, hout, hsl, hfit]
            rw [hstep] at h
            rw [← Option.some.inj h]
          · have hstep : copyStep st (fi, f, si, sec) = some
                ⟨setAssoc st.offsets ((get_section_name f.shstrtab_data sec).getD [])
                  ((lookupAssoc st.offsets
                    ((get_section_name f.shstrtab_data sec).getD [])).getD 0 + sec.size),
                 st.iso ++ [((fi, si), (lookupAssoc st.offsets
                    ((get_section_name f.shstrtab_data sec).getD [])).getD 0)],
                 updateOutData st.outs ((get_section_name f.shstrtab_data sec).getD [])
                   (writeBytes o.data ((lookupAssoc st.offsets
                     ((get_section_name f.shstrtab_data sec).getD [])).getD 0) src)⟩ := by
              simp [copyStep, hty, hout, hsl, hfit]
            rw [hstep] at h
            rw [← Option.some.inj h]
          · refine ⟨writeBytes o.data ((lookupAssoc st.offsets
                ((get_section_name f.shstrtab_data sec).getD [])).getD 0) src, ?_⟩
            have hstep : copyStep st (fi, f, si, sec) = some
                ⟨setAssoc st.offsets ((get_section_name f.shstrtab_data sec).getD [])
                  ((lookupAssoc st.offsets
                    ((get_section_name f.shstrtab_data sec).getD [])).getD 0 + sec.size),
                 st.iso ++ [((fi, si), (lookupAssoc st.offsets
                    ((get_section_name f.shstrtab_data sec).getD [])).getD 0)],
                 updateOutData st.outs ((get_section_name f.shstrtab_data sec).getD [])
                   (writeBytes o.data ((lookupAssoc st.offsets
                     ((get_section_name f.shstrtab_data sec).getD [])).getD 0) src)⟩ := by
              simp [copyStep, hty, hout, hsl, hfit]
            rw [hstep] at h
            rw [← Option.some.inj h]
        · exfalso
          have hstep : copyStep st (fi, f, si, sec) = none := by
            simp [copyStep, hty, hout, hsl, hfit]
          rw [hstep] at h
          simp at h
  · refine Or.inr ⟨?_, ?_⟩
    · simp [copyQual, hty]
    · have hstep : copyStep st (fi, f, si, sec) = some st := by
        simp [copyStep, hty]
      rw [hstep] at h
      exact (Option.some.inj h).symm

theorem lookupAssoc_append_of_some {κ α : Type _} [DecidableEq κ]
    (m1 m2 : List (κ × α)) (k : κ) (v : α) (h : lookupAssoc m1 k = some v) :
    lookupAssoc (m1 ++ m2) k = some v := by
  induction m1 with
  | nil => simp [lookupAssoc] at h
  | cons p rest ih =>
    obtain ⟨a, b⟩ := p
    simp only [lookupAssoc, List.cons_append] at h ⊢
    by_cases hk : a = k
    · simpa [hk] using h
    · rw [if_neg hk] at h ⊢
      exact ih h

theorem lookupAssoc_append_of_none {κ α : Type _} [DecidableEq κ]
    (m1 m2 : List (κ × α)) (k : κ) (h : lookupAssoc m1 k = none) :
    lookupAssoc (m1 ++ m2) k = lookupAssoc m2 k := by
  induction m1 with
  | nil => rfl
  | cons p rest ih =>
    obtain ⟨a, b⟩ := p
    simp only [lookupAssoc, List.cons_append] at h ⊢
    by_cases hk : a = k
    · rw [if_pos hk] at h
      simp at h
    · rw [if_neg hk] at h ⊢
      exact ih h

theorem lookupAssoc_map_replace {κ α : Type _} [DecidableEq κ]
    (m : List (κ × α)) (k : κ) (v : α) (h : (lookupAssoc m k).isSome) :
    lookupAssoc (m.map fun p => if p.1 = k then (p.1, v) else p) k = some v := by
  induction m with
  | nil => simp [lookupAssoc] at h
  | cons p rest ih =>
    obtain ⟨a, b⟩ := p
    by_cases hk : a = k
    · have he : (if (a, b).1 = k then ((a, b).1, v) else (a, b)) = (a, v) := by
        simp [hk]
      rw [List.map_cons, he]
      simp [lookupAssoc, hk]
    · have he : (if (a, b).1 = k then ((a, b).1, v) else (a, b)) = (a, b) := by
        simp [hk]
      rw [List.map_cons, he]
      have h2 : (lookupAssoc rest k).isSome := by
        simpa [lookupAssoc, hk] using h
      simp [lookupAssoc, hk, ih h2]

theorem lookupAssoc_map_replace_ne {κ α : Type _} [DecidableEq κ]
    (m : List (κ × α)) (k k2 : κ) (v : α) (h : k ≠ k2) :
    lookupAssoc (m.map fun p => if p.1 = k then (p.1, v) else p) k2 =
      lookupAssoc m k2 := by
  induction m with
  | nil => rfl
  | cons p rest ih =>
    obtain ⟨a, b⟩ := p
    by_cases hak : a = k
    · have he : (if (a, b).1 = k then ((a, b).1, v) else (a, b)) = (a, v) := by
        simp [hak]
      rw [List.map_cons, he]
      have hne : a ≠ k2 := by rw [hak]; exact h
      simp [lookupAssoc, hne, ih]
    · have he : (if (a, b).1 = k then ((a, b).1, v) else (a, b)) = (a, b) := by
        simp [hak]
      rw [List.map_cons, he]
      by_cases hak2 : a = k2 <;> simp [lookupAssoc, hak2, ih]

theorem lookupAssoc_setAssoc_self {κ α : Type _} [DecidableEq κ]
    (m : List (κ × α)) (k : κ) (v : α) :
    lookupAssoc (setAssoc m k v) k = some v := by
  unfold setAssoc
  by_cases h : (lookupAssoc m k).isSome
  · rw [if_pos h]
    exact lookupAssoc_map_replace m k v h
  · rw [if_neg h]
    have hn : lookupAssoc m k = none := by
      cases hc : lookupAssoc m k with
      | none => rfl
      | some w => rw [hc] at h; simp at h
    rw [lookupAssoc_append_of_none m _ k hn]
    simp [lookupAssoc]

theorem lookupAssoc_setAssoc_ne {κ α : Type _} [DecidableEq κ]
    (m : List (κ × α)) (k k2 : κ) (v : α) (h : k ≠ k2) :
    lookupAssoc (setAssoc m k v) k2 = lookupAssoc m k2 := by
  unfold setAssoc
  by_cases hs : (lookupAssoc m k).isSome
  · rw [if_pos hs]
    exact lookupAssoc_map_replace_ne m k k2 v h
  · rw [if_neg hs]
    cases hc : lookupAssoc m k2 with
    | some w => exact lookupAssoc_append_of_some _ _ _ _ hc
    | none =>
      rw [lookupAssoc_append_of_none _ _ _ hc]
      simp [lookupAssoc, h]

theorem copyStep_iso_mono (st : CopySt) (e : Nat × InputFile × Nat × SectionHeader)
    (st2 : CopySt) (h : copyStep st e = some st2) :
    ∃ t, st2.iso = st.iso ++ t := by
  obtain ⟨fi, f, si, sec⟩ := e
  rcases copyStep_spec st fi f si sec st2 h with
    ⟨n, _, _, hiso, _⟩ | ⟨_, heq⟩
  · exact ⟨_, hiso⟩
  · exact ⟨[], by rw [heq, List.append_nil]⟩

theorem copyList_iso_mono :
    ∀ (l : List (Nat × InputFile × Nat × SectionHeader)) (st st2 : CopySt),
    copyList l st = some st2 → ∃ t, st2.iso = st.iso ++ t := by
  intro l
  induction l with
  | nil =>
    intro st st2 h
    simp only [copyList, Option.some.injEq] at h
    exact ⟨[], by rw [← h, List.append_nil]⟩
  | cons e rest ih =>
    intro st st2 h
    cases hst : copyStep st e with
    | none => rw [copyList, hst] at h; simp at h
    | some st1 =>
      rw [copyList, hst] at h
      obtain ⟨t1, h1⟩ := copyStep_iso_mono st e st1 hst
      obtain ⟨t2, h2⟩ := ih st1 st2 h
      exact ⟨t1 ++ t2, by rw [h2, h1, List.append_assoc]⟩

theorem copyList_offset_spec (outs0 : List OutputSection) (fi : Nat) (f : InputFile)
    (si : Nat) (sec : SectionHeader) (n : Name) (hq : copyQual outs0 f sec = some n) :
    ∀ (l1 l2 : List (Nat × InputFile × Nat × SectionHeader)) (st st2 : CopySt),
    copyList (l1 ++ (fi, f, si, sec) :: l2) st = some st2 →
    (∀ g s, copyQual st.outs g s = copyQual outs0 g s) →
    lookupAssoc st.iso (fi, si) = none →
    (∀ e ∈ l1, (e.1, e.2.2.1) ≠ (fi, si)) →
    lookupAssoc st2.iso (fi, si) =
      some ((lookupAssoc st.offsets n).getD 0 + sumQual outs0 l1 n) := by
  intro l1
  induction l1 with
  | nil =>
    intro l2 st st2 h hco hiso _
    rw [List.nil_append, copyList] at h
    cases hst : copyStep st (fi, f, si, sec) with
    | none => rw [hst] at h; simp at h
    | some st1 =>
      rw [hst] at h
      rcases copyStep_spec st fi f si sec st1 hst with
        ⟨m, hm, _, hisoeq, _, _⟩ | ⟨hnone, _⟩
      · rw [hco f sec, hq] at hm
        obtain rfl : n = m := Option.some.inj hm
        obtain ⟨t, hmono⟩ := copyList_iso_mono l2 st1 st2 h
        rw [hmono, hisoeq, List.append_assoc,
          lookupAssoc_append_of_none _ _ _ hiso]
        simp [lookupAssoc, sumQual]
      · rw [hco f sec, hq] at hnone
        simp at hnone
  | cons e1 l1x ih =>
    intro l2 st st2 h hco hiso hl1
    obtain ⟨gi, g, ti, tsec⟩ := e1
    rw [List.cons_append, copyList] at h
    cases hst : copyStep st (gi, g, ti, tsec) with
    | none => rw [hst] at h; simp at h
    | some st1 =>
      rw [hst] at h
      have hl1x : ∀ e ∈ l1x, (e.1, e.2.2.1) ≠ (fi, si) :=
        fun e he => hl1 e (List.mem_cons_of_mem _ he)
      rcases copyStep_spec st gi g ti tsec st1 hst with
        ⟨m, hm, hoff, hisoeq, _, houts⟩ | ⟨hnone, heq⟩
      · rw [hco g tsec] at hm
        have hco1 : ∀ a s, copyQual st1.outs a s = copyQual outs0 a s := by
          intro a s
          rw [houts, copyQual_updateOutData, hco]
        have hiso1 : lookupAssoc st1.iso (fi, si) = none := by
          rw [hisoeq, lookupAssoc_append_of_none _ _ _ hiso]
          have hne : ((gi, ti) : Nat × Nat) ≠ (fi, si) :=
            hl1 (gi, g, ti, tsec) (List.mem_cons_self _ _)
          simp [lookupAssoc, hne]
        have hres := ih l2 st1 st2 h hco1 hiso1 hl1x
        rw [hres, hoff]
        by_cases hmn : m = n
        · subst hmn
          rw [lookupAssoc_setAssoc_self]
          simp only [Option.getD_some, sumQual, hm, if_pos, Option.some.injEq]
          omega
        · rw [lookupAssoc_setAssoc_ne _ _ _ _ hmn]
          have hne2 : ¬ copyQual outs0 g tsec = some n := by
            rw [hm]
            simpa using hmn
          simp [sumQual, hne2]
      · rw [hco g tsec] at hnone
        rw [heq] at h
        have hres := ih l2 st st2 h hco hiso hl1x
        rw [hres]
        have hne2 : ¬ copyQual outs0 g tsec = some n := by
          rw [hnone]
          simp
        simp [sumQual, hne2]

theorem flattenEnum_keys_nodup (files : List InputFile) :
    ((flattenEnum files).map (fun e => ((e.1, e.2.2.1) : Nat × Nat))).Nodup := by
  unfold flattenEnum
  rw [List.map_flatMap]
  have hfun : ∀ p : Nat × InputFile,
      ((p.2.sections.enum.map fun q => (p.1, p.2, q.1, q.2)).map
        (fun e => ((e.1, e.2.2.1) : Nat × Nat))) =
      (p.2.sections.enum.map Prod.fst).map (fun i => (p.1, i)) := by
    intro p
    rw [List.map_map, List.map_map]
    rfl
  rw [List.flatMap_def, List.nodup_flatten]
  constructor
  · intro s hs
    simp only [List.mem_map] at hs
    obtain ⟨p, _, rfl⟩ := hs
    rw [hfun p]
    refine (List.nodup_enum_map_fst _).map ?_
    intro a b hab
    simpa using hab
  · have hnd : files.enum.Pairwise (fun p p2 => p.1 ≠ p2.1) :=
      List.Pairwise.of_map Prod.fst (fun a b hab => hab) (List.nodup_enum_map_fst files)
    refine List.Pairwise.map _ ?_ hnd
    intro p p2 hne a ha ha2
    rw [hfun p] at ha
    rw [hfun p2] at ha2
    simp only [List.mem_map] at ha ha2
    obtain ⟨i, _, rfl⟩ := ha
    obtain ⟨j, _, heq⟩ := ha2
    exact hne ((by simpa using heq.symm : p.1 = p2.1 ∧ i = j)).1

/-- **C9.** During the data-copy phase, the input-section offset recorded for
each contributing `SHT_PROGBITS` input section (file `fi`, section index `si`,
qualifying under output-section name `n`) equals the sum of the sizes of all
previously copied `SHT_PROGBITS` sections with the same name, iterating input
files in order and sections in index order; no alignment padding is inserted
between consecutive input sections inside a merged output section. -/
theorem copy_offsets_prefix_sum (files : List InputFile) (outs0 : List OutputSection)
    (st2 : CopySt) (l1 l2 : List (Nat × InputFile × Nat × SectionHeader))
    (fi : Nat) (f : InputFile) (si : Nat) (sec : SectionHeader) (n : Name)
    (h : copyPhase files outs0 = some st2)
    (hsplit : flattenEnum files = l1 ++ (fi, f, si, sec) :: l2)
    (hq : copyQual outs0 f sec = some n) :
    lookupAssoc st2.iso (fi, si) = some (sumQual outs0 l1 n) := by
  have hl1 : ∀ e ∈ l1, (e.1, e.2.2.1) ≠ (fi, si) := by
    have hnd := flattenEnum_keys_nodup files
    rw [hsplit] at hnd
    simp only [List.map_append, List.map_cons] at hnd
    intro e he hcontra
    have hmem : ((fi, si) : Nat × Nat) ∈
        l1.map (fun e => ((e.1, e.2.2.1) : Nat × Nat)) :=
      List.mem_map.mpr ⟨e, he, hcontra⟩
    rcases List.nodup_append.mp hnd with ⟨_, _, hdisj⟩
    exact hdisj hmem (List.mem_cons_self _ _)
  have hrun : copyList (l1 ++ (fi, f, si, sec) :: l2) ⟨[], [], outs0⟩ = some st2 := by
    rw [← hsplit]
    exact h
  have := copyList_offset_spec outs0 fi f si sec n hq l1 l2 ⟨[], [], outs0⟩ st2
    hrun (fun g s => rfl) rfl hl1
  simpa [lookupAssoc] using this

def c9F1 : InputFile := ⟨[1, 2, 3, 4], c4Hdr, [c3NullSec, c3TextSec], [c3Sym1], c3Shstr, c3Strtab⟩

def c9F2 : InputFile := ⟨[5, 6, 7, 8], c4Hdr, [c3NullSec, c3TextSec], [c3Sym2], c3Shstr, c3Strtab⟩

def c9L1 : List (Nat × InputFile × Nat × SectionHeader) :=
  [(0, c9F1, 0, c3NullSec), (0, c9F1, 1, c3TextSec), (1, c9F2, 0, c3NullSec)]

def c9St : CopySt :=
  ⟨[(textName, 8)], [((0, 1), 0), ((1, 1), 4)],
   [⟨textName, ⟨0, 1, 6, 0x400100, 0, 8, 0, 0, 0, 0⟩, [1, 2, 3, 4, 5, 6, 7, 8]⟩]⟩

/-- Witness for C9: two files each contribute a 4-byte `.text`; the second
file's section is recorded at offset `4 = sumQual` of the three earlier
entries, with no padding. -/
theorem copy_offsets_prefix_sum_witness :
    copyPhase [c9F1, c9F2] c3Outs = some c9St ∧
    flattenEnum [c9F1, c9F2] = c9L1 ++ (1, c9F2, 1, c3TextSec) :: [] ∧
    copyQual c3Outs c9F2 c3TextSec = some textName ∧
    lookupAssoc c9St.iso (1, 1) = some (sumQual c3Outs c9L1 textName) :=
  ⟨by decide, by decide, by decide,
   copy_offsets_prefix_sum [c9F1, c9F2] c3Outs c9St c9L1 [] 1 c9F2 1 c3TextSec textName
     (by decide) (by decide) (by decide)⟩

end Elkr
